import Mathlib

/-!
Verification development for `photos.py`, a static site generator for
photo blogs.  The Python source is shallowly embedded: pure fragments
become Lean functions, the sqlite decision stores and the photo-store
collaborator become explicit function-valued inputs, fatal `exit(1)` /
uncaught exceptions become `Except.error`, and Python `dict`s become
association lists.  Strings are compared by code point, exactly as
Python compares `str` values.
-/

/-! ### Python primitives -/

/-- Python string comparison `a < b` on lists of characters (code-point
lexicographic, as Python compares `str`). -/
def charListLt : List Char → List Char → Bool
  | [], [] => false
  | [], _ :: _ => true
  | _ :: _, [] => false
  | a :: as, b :: bs => if a < b then true else if b < a then false else charListLt as bs

/-- Python `a < b` on strings. -/
def strLt (a b : String) : Bool := charListLt a.data b.data

/-- Stable insertion of `x` into `acc`: `x` is placed before the first
element strictly greater than it, hence after all earlier elements that
compare equal.  Together with `pySorted` this models CPython's stable
`sorted`. -/
def insertStable (lt : α → α → Bool) (x : α) : List α → List α
  | [] => [x]
  | y :: ys => if lt x y then x :: y :: ys else y :: insertStable lt x ys

/-- Model of Python's builtin `sorted(xs, key=...)`: a stable sort by the
strict comparison `lt` (elements that tie keep their input order). -/
def pySorted (lt : α → α → Bool) (l : List α) : List α :=
  l.foldl (fun acc x => insertStable lt x acc) []

/-- ASCII decimal digit test (the characters Python's `str.isnumeric`
accepts in the integer-timestamp filenames this program writes). -/
def isDigitChar (c : Char) : Bool := 48 ≤ c.toNat && c.toNat ≤ 57

/-- Python `str.isnumeric` on the post-manifest stems: nonempty and all
decimal digits. -/
def isNumericStr (s : String) : Bool := !s.data.isEmpty && s.data.all isDigitChar

/-- Value of a decimal digit string, most significant first (`int(s)` for
the numeric stems fed to `datetime.fromtimestamp`). -/
def parseStem (s : String) : Nat := s.data.foldl (fun a c => 10 * a + (c.toNat - 48)) 0

/-- Positional value of a digit list; `parseStem` is proved equal to it. -/
def digitsVal : List Char → Nat
  | [] => 0
  | c :: cs => (c.toNat - 48) * 10 ^ cs.length + digitsVal cs

/-- The decimal digit character for `n < 10`. -/
def digitChar10 (n : Nat) : Char :=
  match n with
  | 0 => '0' | 1 => '1' | 2 => '2' | 3 => '3' | 4 => '4'
  | 5 => '5' | 6 => '6' | 7 => '7' | 8 => '8' | _ => '9'

/-- Decimal digit list of a natural number, fuelled so that it reduces
definitionally (the fuel argument strictly bounds the value). -/
def natDigitsF : Nat → Nat → List Char
  | 0, _ => []
  | fuel + 1, n =>
    if n < 10 then [digitChar10 n]
    else natDigitsF fuel (n / 10) ++ [digitChar10 (n % 10)]

/-- Decimal digit list of a natural number (Python `f"{n}"`). -/
def natDigits (n : Nat) : List Char := natDigitsF (n + 1) n

/-- Decimal rendering of a natural number (Python `f"{n}"` / `str(n)`). -/
def natRepr (n : Nat) : String := ⟨natDigits n⟩

/-- `dict.pop(key, [])` on an association list: the value stored at
`key` (or `[]`) together with the map with that key removed. -/
def popKey (k : String) : List (String × α) → Option α × List (String × α)
  | [] => (none, [])
  | (k', v) :: rest =>
    if k' = k then (some v, rest)
    else
      let r := popKey k rest
      (r.1, (k', v) :: r.2)

/-- Python `x or y` for an optional string `x` (both `None` and the empty
string are falsy). -/
def pyOr (x : Option String) (y : String) : String :=
  match x with
  | some s => if s = "" then y else s
  | none => y

/-! ### Dates and images (`process_image`, photos.py lines 563-674) -/

/-- A resolved `datetime` value: its POSIX timestamp and its
`strftime("%Y-%m-%d")` rendering.  `strftime` itself is external. -/
structure PyDateTime where
  timestamp : Nat
  ymd : String
  deriving DecidableEq, Repr, Inhabited

/-- An image record as returned by the picpocket photo store. Raw tag
strings are slash-separated; a tag is represented by its list of
slash-separated segments (the raw string is `joinTag` of the list). -/
structure PPImage where
  id : Nat
  full_path : Option String
  creation_date : PyDateTime
  exif : Option (List (String × String))
  title : Option String
  alt : Option String
  caption : Option String
  tags : List (List String)
  deriving DecidableEq, Repr, Inhabited

/-- The `DateTimeOriginal` EXIF field, when the image has EXIF data at
all (`if image.exif:` — an absent or empty dict is falsy). -/
def exifDTO (img : PPImage) : Option String :=
  match img.exif with
  | none => none
  | some l => if l.isEmpty then none else l.lookup "DateTimeOriginal"

/-- `value.split(" ", 1)[0].replace(":", "-")` applied to the EXIF
original-date field (photos.py lines 592-594). -/
def exif_transform (s : String) : String :=
  ((s.splitOn " ").headD s).replace ":" "-"

/-- Effective display date (photos.py lines 589-601): start from the
creation date, overwrite with the transformed EXIF original date when
present, and finally overwrite with the persisted per-image override
when the `images` table has a row. -/
def effective_date (creation_ymd : String) (exifField : Option String)
    (override : Option String) : String :=
  let date := creation_ymd
  let date := match exifField with
    | some v => exif_transform v
    | none => date
  match override with
  | some d => d
  | none => date

/-! ### Tag authorization walk (photos.py lines 602-657)

The decision store (sqlite `tags` table) combined with the interactive
`input` prompt is modelled as a total decision function
`allow : String → Bool`: once a path is decided the answer is persisted,
so every query of one path yields one fixed boolean. -/

/-- The raw string of a tag path given its slash-separated segments
(`"/".join`). -/
def joinTag : List String → String
  | [] => ""
  | [s] => s
  | s :: rest => s ++ "/" ++ joinTag rest

/-- The inner registration loop (photos.py lines 631-652), fuelled so
that it reduces definitionally (each iteration drops the last segment,
so `segs.length + 1` fuel always suffices): starting from an authorized
prefix, register that path and every right-truncated ancestor, stopping
when the path becomes empty/falsy. -/
def register_walkF : Nat → List String → List String
  | 0, _ => []
  | fuel + 1, segs =>
    if joinTag segs = "" then []
    else joinTag segs :: register_walkF fuel segs.dropLast

/-- The registered paths of one authorized prefix, most specific
first. -/
def register_walk (segs : List String) : List String :=
  register_walkF (segs.length + 1) segs

/-- The outer authorization walk (photos.py lines 603-657), fuelled the
same way: while the tag string is truthy, look up its decision; if
allowed, attach its segment list (`tag.split("/")`) and register it with
all ancestors; if denied, right-truncate at the last slash
(`tag.rsplit("/", 1)[0]`, which is the join of `dropLast` of the
segments) and retry. -/
def walk_tagF (allow : String → Bool) : Nat → List String → Option (List String) × List String
  | 0, _ => (none, [])
  | fuel + 1, segs =>
    if joinTag segs = "" then (none, [])
    else if allow (joinTag segs) then (some segs, register_walk segs)
    else walk_tagF allow fuel segs.dropLast

/-- The attached segment list (if any prefix was authorized) and the
registered paths of one raw tag. -/
def walk_tag (allow : String → Bool) (segs : List String) :
    Option (List String) × List String :=
  walk_tagF allow (segs.length + 1) segs

/-- `Path.suffix` of the source file (the extension from the last dot,
empty when there is none). -/
def pathSuffix (p : String) : String :=
  if ('.' ∈ p.data) then ⟨'.' :: (p.data.reverse.takeWhile (fun c => c != '.')).reverse⟩
  else ""

/-- ASCII lowering of a string (`str.lower` on extensions). -/
def lowerStr (s : String) : String := ⟨s.data.map Char.toLower⟩

/-- The cached per-image record built by `process_image` (photos.py
lines 659-674).  `datetime` is always the raw creation date; `date` is
the effective display date; `timestamp` is `creation_date.timestamp()`. -/
structure ImageData where
  id : Nat
  date : String
  datetime : PyDateTime
  title : Option String
  alt : Option String
  caption : Option String
  timestamp : Nat
  file : String
  tags : List (List String)
  deriving DecidableEq, Repr, Inhabited

/-- The pure core of `process_image` (photos.py lines 563-674) for an
image whose path resolved: compute the effective date, run the tag
authorization walk over every raw tag keeping the attached segment
lists, and assemble the cached record.  The asset copy is an external
side effect; `allow` is the persisted-decision function and
`override` the `images` date-override table. -/
def process_image (allow : String → Bool) (override : Nat → Option String)
    (img : PPImage) : ImageData :=
  let extension := lowerStr (pathSuffix (img.full_path.getD ""))
  let date := effective_date img.creation_date.ymd (exifDTO img) (override img.id)
  let tags := img.tags.filterMap (fun t => (walk_tag allow t).1)
  { id := img.id
    date := date
    datetime := img.creation_date
    title := img.title
    alt := img.alt
    caption := img.caption
    timestamp := img.creation_date.timestamp
    file := natRepr img.id ++ extension
    tags := tags }

/-! ### Posts and sections (photos.py lines 683-834) -/

/-- A reader comment `[email, text]`. -/
abbrev Comment := String × String

/-- The pending comments map of a section config, keyed by slug. -/
abbrev CommentMap := List (String × List Comment)

/-- One assembled post entry (the `post_data` / auto-section entry
dicts).  Auto-section entries carry no manifest description and no
`datetime` key; for them `description` is `none` and `timestamp` is the
unused placeholder `0` (their feed date comes from `images[0]`). -/
structure Entry where
  slug : String
  title : String
  description : Option String
  images : List ImageData
  tags : List (List String)
  backward : Option String
  forward : Option String
  comments : List Comment
  timestamp : Nat
  date : String
  deriving DecidableEq, Repr, Inhabited

/-- `entries[-1]["forward"] = slug` (photos.py lines 724-725, 789-790):
set the forward link of the last entry, if any. -/
def setLastForward (s : String) : List Entry → List Entry
  | [] => []
  | [e] => [{e with forward := some s}]
  | e :: rest => e :: setLastForward s rest

/-- Thread a new entry onto the ordered list: point the previous tail at
it, then append it. -/
def threadAppend (es : List Entry) (e : Entry) : List Entry :=
  setLastForward e.slug es ++ [e]

/-- The external collaborators of one `build` run: the photo store
(`api.get_image`), the persisted tag decisions plus interactive prompt
(`allow`), the persisted per-image date overrides, and
`datetime.fromtimestamp(..).strftime("%Y-%m-%d")` as an abstract
formatter. -/
structure BuildCtx where
  store : Nat → Option PPImage
  allow : String → Bool
  override : Nat → Option String
  fmtDate : Nat → String

/-- `process_image(image_id)` for a blog post's image id (photos.py
lines 563-580): unknown ids and images without a resolvable path abort
the build (`exit(1)`). -/
def resolveImage (ctx : BuildCtx) (image_id : Nat) : Except String ImageData :=
  match ctx.store image_id with
  | none => .error ("cant find image: " ++ natRepr image_id)
  | some img =>
    if img.full_path.isSome then .ok (process_image ctx.allow ctx.override img)
    else .error ("cant find image: " ++ natRepr image_id)

/-- Resolve a manifest's image ids in order, propagating the fatal
failure. -/
def resolveImages (ctx : BuildCtx) : List Nat → Except String (List ImageData)
  | [] => .ok []
  | i :: rest =>
    match resolveImage ctx i with
    | .error e => .error e
    | .ok d =>
      match resolveImages ctx rest with
      | .error e => .error e
      | .ok ds => .ok (d :: ds)

/-- The Python `set` of tag tuples of a blog post, modelled as a
duplicate-free list in first-insertion order. -/
def addTagSet (acc : List (List String)) (ts : List (List String)) : List (List String) :=
  ts.foldl (fun a t => if t ∈ a then a else a ++ [t]) acc

/-- A blog post manifest (`<timestamp>.json`). -/
structure PostManifest where
  title : String
  slug : String
  description : Option String
  images : List Nat
  deriving DecidableEq, Repr, Inhabited

/-- A file inside a `blog-<slug>` directory: its filename stem and its
parsed JSON payload. -/
structure BlogFile where
  stem : String
  manifest : PostManifest
  deriving DecidableEq, Repr, Inhabited

/-- The filename the directory iteration sorts by (`f.name`). -/
def fileName (f : BlogFile) : String := f.stem ++ ".json"

/-- A blog's `config.json`. -/
structure BlogConfig where
  title : String
  slug : String
  description : Option String
  icon : Option String
  comments : CommentMap
  deriving DecidableEq, Repr, Inhabited

/-- `sorted(path.iterdir(), key=lambda f: f.name)` followed by the
`stem.isnumeric()` filter (photos.py lines 696-698): the manifests in
the order the blog loop processes them. -/
def orderedNumeric (files : List BlogFile) : List BlogFile :=
  (pySorted (fun a b => strLt (fileName a) (fileName b)) files).filter
    (fun f => isNumericStr f.stem)

/-- The blog post loop (photos.py lines 696-728): mutate the manifest
slug to `slug + ".html"`, pop that key from the pending comments,
resolve the images, thread backward/forward links, and append. -/
def blogPosts (ctx : BuildCtx) : List BlogFile → List Entry → CommentMap →
    Option String → Except String (List Entry × CommentMap)
  | [], es, comments, _ => .ok (es, comments)
  | f :: rest, es, comments, previous =>
    match resolveImages ctx f.manifest.images with
    | .error e => .error e
    | .ok imgDatas =>
      let slug := f.manifest.slug ++ ".html"
      let popped := popKey slug comments
      let entry : Entry :=
        { slug := slug
          title := f.manifest.title
          description := f.manifest.description
          images := imgDatas
          tags := addTagSet [] (imgDatas.map (·.tags)).flatten
          backward := previous
          forward := none
          comments := (popped.1).getD []
          timestamp := parseStem f.stem
          date := ctx.fmtDate (parseStem f.stem) }
      blogPosts ctx rest (threadAppend es entry) popped.2 (some slug)

/-- The assembled output of one section: its ordered entries, the
comments left un-popped, and whether the non-fatal
`"Unused comments"` warning was printed. -/
structure SectionOut where
  entries : List Entry
  leftover : CommentMap
  warned : Bool
  deriving DecidableEq, Repr, Inhabited

/-- One `blog-*` directory pass (photos.py lines 683-731). -/
def assembleBlog (ctx : BuildCtx) (cfg : BlogConfig) (files : List BlogFile) :
    Except String SectionOut :=
  match blogPosts ctx (orderedNumeric files) [] cfg.comments none with
  | .error e => .error e
  | .ok r => .ok { entries := r.1, leftover := r.2, warned := !r.2.isEmpty }

/-- An auto-section's `section-*.json` configuration. -/
structure SectionConfig where
  title : String
  slug : String
  description : Option String
  creators : Option (List String)
  minRating : Option Int
  allTags : Option (List String)
  noTags : Option (List String)
  icon : Option String
  comments : CommentMap
  deriving DecidableEq, Repr, Inhabited

/-- `s.rsplit(".", 1)[0]`: everything before the last dot (the whole
string when there is no dot). -/
def rsplitDotHead (s : String) : String :=
  if ('.' ∈ s.data) then ⟨((s.data.reverse.dropWhile (fun c => c != '.')).drop 1).reverse⟩
  else s

/-- The auto-section image loop (photos.py lines 771-806) over the
search results (already ordered by creation date by the photo store):
skip path-less images, derive the slug from the effective date (with the
image id appended when that date was already used), pop pending comments
keyed by the slug without its extension, and thread links. -/
def sectionPosts (ctx : BuildCtx) (cfg : SectionConfig) :
    List PPImage → List Entry → List String → CommentMap → Option String →
    List Entry × CommentMap
  | [], es, _, comments, _ => (es, comments)
  | img :: rest, es, dates, comments, previous =>
    if img.full_path.isNone then sectionPosts ctx cfg rest es dates comments previous
    else
      let image_data := process_image ctx.allow ctx.override img
      let date := image_data.date
      let slug := if date ∈ dates then date ++ "-" ++ natRepr image_data.id ++ ".html"
                  else date ++ ".html"
      let dates' := if date ∈ dates then dates else date :: dates
      let popped := popKey (rsplitDotHead slug) comments
      let entry : Entry :=
        { slug := slug
          title := pyOr image_data.title cfg.title
          description := none
          images := [image_data]
          tags := image_data.tags
          backward := previous
          forward := none
          comments := (popped.1).getD []
          timestamp := 0
          date := date }
      sectionPosts ctx cfg rest (threadAppend es entry) dates' popped.2 (some slug)

/-- One `section-*` pass (photos.py lines 758-809): a configured
`min-rating` raises `NotImplementedError("oops")`, which nothing
catches, so the whole build dies. -/
def assembleSection (ctx : BuildCtx) (cfg : SectionConfig) (imgs : List PPImage) :
    Except String SectionOut :=
  if cfg.minRating.isSome then .error "oops"
  else
    let r := sectionPosts ctx cfg imgs [] [] cfg.comments none
    .ok { entries := r.1, leftover := r.2, warned := !r.2.isEmpty }

/-- The directory loop over auto-sections, propagating any fatal
error. -/
def buildSections (ctx : BuildCtx) :
    List (SectionConfig × List PPImage) → Except String (List (List Entry))
  | [] => .ok []
  | s :: rest =>
    match assembleSection ctx s.1 s.2 with
    | .error e => .error e
    | .ok out =>
      match buildSections ctx rest with
      | .error e => .error e
      | .ok rs => .ok (out.entries :: rs)

/-! ### Feeds and page rendering (photos.py lines 58-199, 811-914) -/

/-- What `render_feeds` and the navbar need of a `Page`: its
output-relative path and its date (a POSIX timestamp; every page handed
to `render_feeds` has one). -/
structure FeedPage where
  relative : String
  date : Nat
  deriving DecidableEq, Repr, Inhabited

/-- `sorted(pages, key=lambda page: page.date, reverse=True)`
(photos.py line 143): stable descending sort by date. -/
def feedOrder (pages : List FeedPage) : List FeedPage :=
  pySorted (fun a b => decide (b.date < a.date)) pages

/-- The feed pages of a blog section (photos.py lines 733-744): the
`Page` date is the entry's own `datetime` (from the manifest's
integer-timestamp stem). -/
def blogFeedPages (cfg : BlogConfig) (es : List Entry) : List FeedPage :=
  es.map (fun e => { relative := cfg.slug ++ "/" ++ e.slug, date := e.timestamp })

/-- The feed pages of an auto-section (photos.py lines 811-822): the
`Page` date is `entry["images"][0]["datetime"]`, the image's raw
creation date. -/
def autoPages (cfg : SectionConfig) (es : List Entry) : List FeedPage :=
  es.map (fun e =>
    { relative := cfg.slug ++ "/" ++ e.slug
      date := ((e.images.headD default).datetime).timestamp })

/-- What `Page.render` needs of a page. -/
structure SitePage where
  relative : String
  template : String
  title : String
  deriving DecidableEq, Repr, Inhabited

/-- The final rendering loop (photos.py lines 75-88 and 908-914): each
page's template step either writes a file or, when it throws, is caught
right there and turned into a printed `"building ... failed"` line; the
loop always moves on to the next page.  Returns the written
`(path, contents)` pairs and the printed failure lines, in page
order. -/
def renderAll (tmpl : SitePage → Except String String) (ps : List SitePage) :
    List (String × String) × List String :=
  ps.foldl
    (fun acc p =>
      match tmpl p with
      | .ok out => (acc.1 ++ [(p.relative, out)], acc.2)
      | .error e => (acc.1, acc.2 ++ ["building " ++ p.relative ++ " failed: " ++ e]))
    ([], [])

/-! ### Lemmas about the stable sort model -/

theorem mem_insertStable (lt : α → α → Bool) (x a : α) :
    ∀ l : List α, a ∈ insertStable lt x l ↔ a = x ∨ a ∈ l := by
  intro l
  induction l with
  | nil => simp [insertStable]
  | cons y ys ih =>
    simp only [insertStable]
    split
    · simp [List.mem_cons]
    · simp [List.mem_cons, ih]
      tauto

theorem insertStable_perm (lt : α → α → Bool) (x : α) :
    ∀ l : List α, (insertStable lt x l).Perm (x :: l) := by
  intro l
  induction l with
  | nil => simp [insertStable]
  | cons y ys ih =>
    simp only [insertStable]
    split
    · exact List.Perm.refl _
    · exact (ih.cons y).trans (List.Perm.swap x y ys)

theorem foldl_insertStable_perm (lt : α → α → Bool) :
    ∀ (l acc : List α),
      (l.foldl (fun acc x => insertStable lt x acc) acc).Perm (acc ++ l) := by
  intro l
  induction l with
  | nil => intro acc; simp
  | cons x xs ih =>
    intro acc
    simp only [List.foldl_cons]
    refine (ih (insertStable lt x acc)).trans ?_
    refine ((insertStable_perm lt x acc).append_right xs).trans ?_
    simpa using List.perm_middle.symm

theorem pySorted_perm (lt : α → α → Bool) (l : List α) : (pySorted lt l).Perm l := by
  simpa using foldl_insertStable_perm lt l []

theorem insertStable_pairwise (lt : α → α → Bool)
    (hasym : ∀ a b, lt a b = true → lt b a = false)
    (htrans : ∀ a b c, lt a b = true → lt b c = true → lt a c = true)
    (x : α) :
    ∀ l : List α, l.Pairwise (fun a b => lt b a = false) →
      (insertStable lt x l).Pairwise (fun a b => lt b a = false) := by
  intro l
  induction l with
  | nil => intro _; simp [insertStable]
  | cons y ys ih =>
    intro h
    rw [List.pairwise_cons] at h
    simp only [insertStable]
    split
    · rename_i hxy
      rw [List.pairwise_cons]
      refine ⟨?_, List.pairwise_cons.mpr ⟨h.1, h.2⟩⟩
      intro b hb
      rcases List.mem_cons.mp hb with rfl | hb
      · exact hasym _ _ hxy
      · cases hbx : lt b x with
        | false => rfl
        | true =>
          have hby := htrans _ _ _ hbx hxy
          rw [h.1 b hb] at hby
          exact absurd hby (by simp)
    · rename_i hxy
      rw [List.pairwise_cons]
      refine ⟨?_, ih h.2⟩
      intro b hb
      rcases (mem_insertStable lt x b ys).mp hb with rfl | hb
      · simpa using hxy
      · exact h.1 b hb

theorem pySorted_pairwise (lt : α → α → Bool)
    (hasym : ∀ a b, lt a b = true → lt b a = false)
    (htrans : ∀ a b c, lt a b = true → lt b c = true → lt a c = true)
    (l : List α) : (pySorted lt l).Pairwise (fun a b => lt b a = false) := by
  have aux : ∀ (l acc : List α), acc.Pairwise (fun a b => lt b a = false) →
      (l.foldl (fun acc x => insertStable lt x acc) acc).Pairwise
        (fun a b => lt b a = false) := by
    intro l
    induction l with
    | nil => intro acc h; simpa using h
    | cons x xs ih =>
      intro acc h
      simp only [List.foldl_cons]
      exact ih _ (insertStable_pairwise lt hasym htrans x acc h)
  exact aux l [] (by simp)

theorem pairwise_perm_eq (lt : α → α → Bool) :
    ∀ l₁ l₂ : List α, l₁.Perm l₂ →
      l₁.Pairwise (fun a b => lt b a = false) →
      l₂.Pairwise (fun a b => lt b a = false) →
      (∀ a ∈ l₁, ∀ b ∈ l₁, lt a b = false → lt b a = false → a = b) →
      l₁ = l₂ := by
  intro l₁
  induction l₁ with
  | nil =>
    intro l₂ hp _ _ _
    simpa using hp.symm.eq_nil.symm
  | cons x xs ih =>
    intro l₂ hp h1 h2 htie
    cases l₂ with
    | nil => simp at hp
    | cons y ys =>
      have hxy : x = y := by
        rcases List.mem_cons.mp (hp.subset (List.mem_cons_self x xs)) with h | hxys
        · exact h
        · have hxyF : lt x y = false := (List.pairwise_cons.mp h2).1 x hxys
          rcases List.mem_cons.mp (hp.symm.subset (List.mem_cons_self y ys)) with h' | hyxs
          · exact h'.symm
          · have hyxF : lt y x = false := (List.pairwise_cons.mp h1).1 y hyxs
            exact htie x (List.mem_cons_self x xs) y (List.mem_cons_of_mem x hyxs) hxyF hyxF
      subst hxy
      have hps : xs.Perm ys := hp.cons_inv
      have htail := ih ys hps (List.pairwise_cons.mp h1).2 (List.pairwise_cons.mp h2).2
        (fun a ha b hb hab hba =>
          htie a (List.mem_cons_of_mem x ha) b (List.mem_cons_of_mem x hb) hab hba)
      rw [htail]

/-! ### Lemmas about code-point comparison and digit strings -/

theorem charLt_toNat {a b : Char} : a < b ↔ a.toNat < b.toNat :=
  ⟨fun h => h, fun h => h⟩

theorem charListLt_irrefl : ∀ as : List Char, charListLt as as = false := by
  intro as
  induction as with
  | nil => rfl
  | cons a l ih =>
    have h : ¬a < a := lt_irrefl a
    simp [charListLt, h, ih]

theorem charListLt_asymm :
    ∀ as bs : List Char, charListLt as bs = true → charListLt bs as = false := by
  intro as
  induction as with
  | nil =>
    intro bs h
    cases bs with
    | nil => simp [charListLt] at h
    | cons b bs => rfl
  | cons a as ih =>
    intro bs h
    cases bs with
    | nil => simp [charListLt] at h
    | cons b bs =>
      simp only [charListLt] at h ⊢
      by_cases hab : a < b
      · simp [hab, lt_asymm hab]
      · by_cases hba : b < a
        · rw [if_neg hab, if_pos hba] at h
          exact absurd h (by simp)
        · rw [if_neg hab, if_neg hba] at h
          simp [hab, hba]
          exact ih bs h

theorem charListLt_trans :
    ∀ as bs cs : List Char, charListLt as bs = true → charListLt bs cs = true →
      charListLt as cs = true := by
  intro as
  induction as with
  | nil =>
    intro bs cs h1 h2
    cases bs with
    | nil => simp [charListLt] at h1
    | cons b bs =>
      cases cs with
      | nil => simp [charListLt] at h2
      | cons c cs => simp [charListLt]
  | cons a as ih =>
    intro bs cs h1 h2
    cases bs with
    | nil => simp [charListLt] at h1
    | cons b bs =>
      cases cs with
      | nil => simp [charListLt] at h2
      | cons c cs =>
        simp only [charListLt] at h1 h2 ⊢
        by_cases hab : a < b
        · by_cases hbc : b < c
          · simp [lt_trans hab hbc]
          · by_cases hcb : c < b
            · rw [if_neg hbc, if_pos hcb] at h2
              exact absurd h2 (by simp)
            · have heq : b = c := le_antisymm (not_lt.mp hcb) (not_lt.mp hbc)
              subst heq
              simp [hab]
        · by_cases hba : b < a
          · rw [if_neg hab, if_pos hba] at h1
            exact absurd h1 (by simp)
          · have heq : a = b := le_antisymm (not_lt.mp hba) (not_lt.mp hab)
            subst heq
            rw [if_neg (lt_irrefl a), if_neg (lt_irrefl a)] at h1
            by_cases hac : a < c
            · simp [hac]
            · by_cases hca : c < a
              · rw [if_neg hac, if_pos hca] at h2
                exact absurd h2 (by simp)
              · have heq2 : a = c := le_antisymm (not_lt.mp hca) (not_lt.mp hac)
                subst heq2
                rw [if_neg (lt_irrefl a), if_neg (lt_irrefl a)] at h2
                rw [if_neg (lt_irrefl a), if_neg (lt_irrefl a)]
                exact ih bs cs h1 h2

theorem charListLt_trichotomy (as : List Char) :
    ∀ bs : List Char, charListLt as bs = true ∨ as = bs ∨ charListLt bs as = true := by
  induction as with
  | nil =>
    intro bs
    cases bs with
    | nil => right; left; rfl
    | cons b bs => left; rfl
  | cons a as ih =>
    intro bs
    cases bs with
    | nil => right; right; rfl
    | cons b bs =>
      rcases lt_trichotomy a b with h | h | h
      · left; simp [charListLt, h]
      · subst h
        rcases ih bs with h' | h' | h'
        · left; simp [charListLt, lt_irrefl, h']
        · right; left; rw [h']
        · right; right; simp [charListLt, lt_irrefl, h']
      · right; right; simp [charListLt, h]

theorem charListLt_append_cancel (cs : List Char) :
    ∀ as bs : List Char, as.length = bs.length →
      charListLt (as ++ cs) (bs ++ cs) = charListLt as bs := by
  intro as
  induction as with
  | nil =>
    intro bs h
    have hb : bs = [] := by
      cases bs with
      | nil => rfl
      | cons b bs => simp at h
    subst hb
    simp [charListLt, charListLt_irrefl]
  | cons a as ih =>
    intro bs h
    cases bs with
    | nil => simp at h
    | cons b bs =>
      simp only [List.cons_append, charListLt]
      by_cases hab : a < b
      · simp [hab]
      · by_cases hba : b < a
        · simp [hab, hba]
        · simp [hab, hba, ih bs (by simpa using h)]

theorem parseStem_eq_digitsVal (s : String) : parseStem s = digitsVal s.data := by
  have aux : ∀ (cs : List Char) (a : Nat),
      cs.foldl (fun a c => 10 * a + (c.toNat - 48)) a = a * 10 ^ cs.length + digitsVal cs := by
    intro cs
    induction cs with
    | nil => intro a; simp [digitsVal]
    | cons c cs ih =>
      intro a
      simp only [List.foldl_cons, digitsVal, List.length_cons]
      rw [ih]
      ring
  simpa [parseStem] using aux s.data 0

theorem digitsVal_lt (cs : List Char) (h : ∀ c ∈ cs, isDigitChar c = true) :
    digitsVal cs < 10 ^ cs.length := by
  induction cs with
  | nil => simp [digitsVal]
  | cons c cs ih =>
    have hc := h c (List.mem_cons_self c cs)
    have hd : c.toNat - 48 ≤ 9 := by
      simp [isDigitChar] at hc
      omega
    have hv := ih (fun d hdm => h d (List.mem_cons_of_mem c hdm))
    simp only [digitsVal, List.length_cons]
    have hp : (10 : Nat) ^ (cs.length + 1) = 10 * 10 ^ cs.length := by ring
    have hm : (c.toNat - 48) * 10 ^ cs.length ≤ 9 * 10 ^ cs.length :=
      Nat.mul_le_mul_right _ hd
    rw [hp]
    omega

theorem charListLt_digit_val :
    ∀ as bs : List Char, as.length = bs.length →
      (∀ c ∈ as, isDigitChar c = true) → (∀ c ∈ bs, isDigitChar c = true) →
      charListLt as bs = true → digitsVal as < digitsVal bs := by
  intro as
  induction as with
  | nil =>
    intro bs hlen _ _ h
    cases bs with
    | nil => simp [charListLt] at h
    | cons b bs => simp at hlen
  | cons a as ih =>
    intro bs hlen hda hdb h
    cases bs with
    | nil => simp at hlen
    | cons b bs =>
      have hlen' : as.length = bs.length := by simpa using hlen
      simp only [charListLt] at h
      simp only [digitsVal]
      have hva : digitsVal as < 10 ^ as.length :=
        digitsVal_lt as (fun c hc => hda c (List.mem_cons_of_mem a hc))
      by_cases hab : a < b
      · have h48a : 48 ≤ a.toNat ∧ a.toNat ≤ 57 := by
          have := hda a (List.mem_cons_self a as)
          simp [isDigitChar] at this
          omega
        have h48b : 48 ≤ b.toNat ∧ b.toNat ≤ 57 := by
          have := hdb b (List.mem_cons_self b bs)
          simp [isDigitChar] at this
          omega
        have hxy : a.toNat - 48 + 1 ≤ b.toNat - 48 := by
          have := charLt_toNat.mp hab
          omega
        rw [hlen'] at hva ⊢
        have h1 : (a.toNat - 48) * 10 ^ bs.length + 10 ^ bs.length ≤
            (b.toNat - 48) * 10 ^ bs.length := by
          calc (a.toNat - 48) * 10 ^ bs.length + 10 ^ bs.length
              = (a.toNat - 48 + 1) * 10 ^ bs.length := by ring
            _ ≤ (b.toNat - 48) * 10 ^ bs.length := Nat.mul_le_mul_right _ hxy
        omega
      · by_cases hba : b < a
        · rw [if_neg hab, if_pos hba] at h
          exact absurd h (by simp)
        · rw [if_neg hab, if_neg hba] at h
          have heq : a = b := le_antisymm (not_lt.mp hba) (not_lt.mp hab)
          subst heq
          have hv := ih bs hlen' (fun c hc => hda c (List.mem_cons_of_mem a hc))
            (fun c hc => hdb c (List.mem_cons_of_mem a hc)) h
          rw [hlen']
          omega

theorem fileName_data (f : BlogFile) : (fileName f).data = f.stem.data ++ ".json".data := by
  simp [fileName, String.data_append]

theorem stem_le_of_name_not_lt (f g : BlogFile) (hlen : f.stem.length = g.stem.length)
    (hdf : ∀ c ∈ f.stem.data, isDigitChar c = true)
    (hdg : ∀ c ∈ g.stem.data, isDigitChar c = true)
    (h : strLt (fileName g) (fileName f) = false) :
    parseStem f.stem ≤ parseStem g.stem := by
  by_contra hc
  push_neg at hc
  rw [parseStem_eq_digitsVal, parseStem_eq_digitsVal] at hc
  have hlend : f.stem.data.length = g.stem.data.length := hlen
  have hF : charListLt (fileName g).data (fileName f).data = false := h
  rcases charListLt_trichotomy (fileName g).data (fileName f).data with h1 | h1 | h1
  · rw [h1] at hF
    exact absurd hF (by simp)
  · have hd : (fileName g).data = (fileName f).data := h1
    rw [fileName_data, fileName_data] at hd
    have : g.stem.data = f.stem.data := (List.append_inj' hd rfl).1
    rw [this] at hc
    exact absurd hc (lt_irrefl _)
  · have hs : charListLt f.stem.data g.stem.data = true := by
      have h2 := h1
      rw [fileName_data, fileName_data] at h2
      rwa [charListLt_append_cancel _ _ _ hlend] at h2
    have := charListLt_digit_val _ _ hlend hdf hdg hs
    omega

/-- Claim C8: a failure while rendering one page through its template is
caught and logged locally, and the loop still renders every remaining
page: the written files are exactly the successful pages in order, and
the printed lines are exactly the failed pages in order. -/
theorem c8_render_failures_local (tmpl : SitePage → Except String String)
    (ps : List SitePage) :
    renderAll tmpl ps =
      (ps.filterMap (fun p => match tmpl p with
          | .ok out => some (p.relative, out)
          | .error _ => none),
       ps.filterMap (fun p => match tmpl p with
          | .ok _ => none
          | .error e => some ("building " ++ p.relative ++ " failed: " ++ e))) := by
  have aux : ∀ (ps : List SitePage) (acc : List (String × String) × List String),
      ps.foldl
          (fun acc p =>
            match tmpl p with
            | .ok out => (acc.1 ++ [(p.relative, out)], acc.2)
            | .error e => (acc.1, acc.2 ++ ["building " ++ p.relative ++ " failed: " ++ e]))
          acc =
        (acc.1 ++ ps.filterMap (fun p => match tmpl p with
            | .ok out => some (p.relative, out)
            | .error _ => none),
         acc.2 ++ ps.filterMap (fun p => match tmpl p with
            | .ok _ => none
            | .error e => some ("building " ++ p.relative ++ " failed: " ++ e))) := by
    intro ps
    induction ps with
    | nil => intro acc; simp
    | cons p rest ih =>
      intro acc
      cases htp : tmpl p with
      | ok out => simp [htp, ih]
      | error e => simp [htp, ih]
  simpa [renderAll] using aux ps ([], [])

/-- Claim C6: the effective display date of a resolved image is chosen
by strict precedence: the persisted override when the `images` table has
a row for the id, otherwise the (transformed) EXIF `DateTimeOriginal`
field when present, otherwise the creation date. -/
theorem c6_date_precedence (allow : String → Bool) (override : Nat → Option String)
    (img : PPImage) (d v : String) :
    (override img.id = some d → (process_image allow override img).date = d) ∧
    (override img.id = none → exifDTO img = some v →
      (process_image allow override img).date = exif_transform v) ∧
    (override img.id = none → exifDTO img = none →
      (process_image allow override img).date = img.creation_date.ymd) := by
  refine ⟨fun h1 => ?_, fun h1 h2 => ?_, fun h1 h2 => ?_⟩
  · simp [process_image, effective_date, h1]
  · simp [process_image, effective_date, h1, h2]
  · simp [process_image, effective_date, h1, h2]

theorem buildSections_error (ctx : BuildCtx) :
    ∀ sections : List (SectionConfig × List PPImage),
      (∃ s ∈ sections, s.1.minRating.isSome = true) →
      ∃ e, buildSections ctx sections = .error e := by
  intro sections
  induction sections with
  | nil => intro h; simp at h
  | cons s rest ih =>
    intro h
    rcases h with ⟨t, ht, hmin⟩
    rcases List.mem_cons.mp ht with rfl | htr
    · exact ⟨"oops", by simp [buildSections, assembleSection, hmin]⟩
    · rcases ih ⟨t, htr, hmin⟩ with ⟨e, he⟩
      cases hs : assembleSection ctx s.1 s.2 with
      | error e' => exact ⟨e', by simp [buildSections, hs]⟩
      | ok out => exact ⟨e, by simp [buildSections, hs, he]⟩

/-- Claim C9: building a site whose auto-section configuration has the
minimum-rating filter set raises `NotImplementedError("oops")`, which
nothing catches: the section pass fails and the whole build dies instead
of silently ignoring the filter. -/
theorem c9_min_rating_fatal (ctx : BuildCtx)
    (sections : List (SectionConfig × List PPImage))
    (cfg : SectionConfig) (imgs : List PPImage) (r : Int)
    (hmem : (cfg, imgs) ∈ sections) (hmin : cfg.minRating = some r) :
    assembleSection ctx cfg imgs = .error "oops" ∧
    ∃ e, buildSections ctx sections = .error e := by
  constructor
  · simp [assembleSection, hmin]
  · exact buildSections_error ctx sections ⟨(cfg, imgs), hmem, by simp [hmin]⟩

/-- Claim C7: feeds list entries in stable descending date order;
whenever all dates are distinct the result does not depend on the order
posts were appended. -/
theorem c7_feed_order (l₁ l₂ : List FeedPage) :
    (feedOrder l₁).Pairwise (fun a b => b.date ≤ a.date) ∧
    (l₁.Perm l₂ → (l₁.map (fun p => p.date)).Nodup → feedOrder l₁ = feedOrder l₂) := by
  have hasym : ∀ a b : FeedPage,
      decide (b.date < a.date) = true → decide (a.date < b.date) = false := by
    intro a b h
    simp at h ⊢
    omega
  have htrans : ∀ a b c : FeedPage,
      decide (b.date < a.date) = true → decide (c.date < b.date) = true →
        decide (c.date < a.date) = true := by
    intro a b c h1 h2
    simp at h1 h2 ⊢
    omega
  constructor
  · have h := pySorted_pairwise _ hasym htrans l₁
    refine h.imp ?_
    intro a b hab
    simp at hab
    omega
  · intro hp hnd
    have hs1 := pySorted_pairwise _ hasym htrans l₁
    have hs2 := pySorted_pairwise _ hasym htrans l₂
    have hperm : (feedOrder l₁).Perm (feedOrder l₂) :=
      (pySorted_perm _ l₁).trans (hp.trans (pySorted_perm _ l₂).symm)
    refine pairwise_perm_eq _ _ _ hperm hs1 hs2 ?_
    intro a ha b hb hab hba
    have ha' : a ∈ l₁ := (pySorted_perm _ l₁).subset ha
    have hb' : b ∈ l₁ := (pySorted_perm _ l₁).subset hb
    have hd : a.date = b.date := by
      simp at hab hba
      omega
    exact List.inj_on_of_nodup_map hnd ha' hb' hd

/-- Witness for C7 at a concrete two-post feed with distinct dates. -/
theorem c7_feed_order_witness :
    feedOrder ([⟨"a", 3⟩, ⟨"b", 5⟩] : List FeedPage)
      = feedOrder ([⟨"b", 5⟩, ⟨"a", 3⟩] : List FeedPage) :=
  (c7_feed_order ([⟨"a", 3⟩, ⟨"b", 5⟩] : List FeedPage)
      ([⟨"b", 5⟩, ⟨"a", 3⟩] : List FeedPage)).2
    (List.Perm.swap (⟨"b", 5⟩ : FeedPage) (⟨"a", 3⟩ : FeedPage) []) (by decide)

/-- Counterexample for C7 as stated: two posts sharing a publish date
keep their append order (the sort is stable), so swapping the input
order changes the emitted order. -/
theorem c7_tie_counterexample :
    ([⟨"a", 5⟩, ⟨"b", 5⟩] : List FeedPage).Perm [⟨"b", 5⟩, ⟨"a", 5⟩] ∧
    feedOrder [⟨"a", 5⟩, ⟨"b", 5⟩] ≠ feedOrder [⟨"b", 5⟩, ⟨"a", 5⟩] := by
  constructor
  · exact List.Perm.swap _ _ []
  · decide

/-! ### Concrete build inputs used by witnesses and counterexamples -/

/-- A build context with an empty photo store, an all-deny tag store, no
date overrides and a trivial date formatter. -/
def trivCtx : BuildCtx :=
  { store := fun _ => none
    allow := fun _ => false
    override := fun _ => none
    fmtDate := fun _ => "" }

/-- A resolved image with no EXIF data and no tags. -/
def imgPlain : PPImage :=
  { id := 1
    full_path := some "/p/a.jpg"
    creation_date := ⟨5, "1999-01-01"⟩
    exif := none
    title := none
    alt := none
    caption := none
    tags := [] }

/-- Witness for C6: all three precedence branches at concrete inputs. -/
theorem c6_date_precedence_witness :
    (process_image (fun _ => false) (fun _ => some "2020-02-02") imgPlain).date
        = "2020-02-02" ∧
    (process_image (fun _ => false) (fun _ => none)
        { imgPlain with exif := some [("DateTimeOriginal", "2021:03:04 10:00")] }).date
      = exif_transform "2021:03:04 10:00" ∧
    (process_image (fun _ => false) (fun _ => none) imgPlain).date = "1999-01-01" :=
  ⟨(c6_date_precedence _ _ imgPlain "2020-02-02" "x").1 rfl,
   (c6_date_precedence _ _ _ "x" "2021:03:04 10:00").2.1 rfl rfl,
   (c6_date_precedence _ _ imgPlain "x" "x").2.2 rfl rfl⟩

/-- An auto-section configuration with the unimplemented minimum-rating
filter switched on. -/
def cfgMinSet : SectionConfig :=
  { title := "T", slug := "t", description := none, creators := none
    minRating := some 3, allTags := none, noTags := none, icon := none
    comments := [] }

/-- Witness for C9 at a concrete one-section site. -/
theorem c9_min_rating_fatal_witness :
    assembleSection trivCtx cfgMinSet [] = .error "oops" ∧
    ∃ e, buildSections trivCtx [(cfgMinSet, [])] = .error e :=
  c9_min_rating_fatal trivCtx [(cfgMinSet, [])] cfgMinSet [] 3
    (List.mem_cons_self _ _) rfl

/-- A blog whose pending comments are keyed by the post's manifest slug,
the key the `add-comment` command writes. -/
def cfgC2 : BlogConfig :=
  { title := "Garden", slug := "garden", description := none, icon := none
    comments := [("first-post", [("u@example.com", "nice")])] }

/-- One post manifest with slug `first-post` and no images. -/
def filesC2 : List BlogFile :=
  [{ stem := "100"
     manifest := { title := "First", slug := "first-post", description := none, images := [] } }]

/-- Claim C2 (evidence of the code bug): the blog loop appends `.html`
to the slug *before* popping the pending comments, so a comment stored
under the post's slug `first-post` — the key `add-comment` writes — is
never attached to the entry and is instead reported as an unused-comment
warning. -/
theorem c2_blog_comment_key_mismatch :
    (assembleBlog trivCtx cfgC2 filesC2).toOption.map
        (fun out => out.entries.map (fun e => (e.slug, e.comments)))
      = some [("first-post.html", [])] ∧
    (assembleBlog trivCtx cfgC2 filesC2).toOption.map (fun out => out.leftover)
      = some [("first-post", [("u@example.com", "nice")])] ∧
    (assembleBlog trivCtx cfgC2 filesC2).toOption.map (fun out => out.warned)
      = some true := by
  refine ⟨by decide, by decide, by decide⟩

/-! ### Claim C1: blog manifest processing order -/

theorem map_setLastForward_eq (g : Entry → β)
    (hg : ∀ (e : Entry) (s : String), g {e with forward := some s} = g e) :
    ∀ (s : String) (es : List Entry), (setLastForward s es).map g = es.map g := by
  intro s es
  induction es with
  | nil => rfl
  | cons e rest ih =>
    cases rest with
    | nil => simp [setLastForward, hg]
    | cons f rest2 =>
      have h2 : setLastForward s (e :: f :: rest2) = e :: setLastForward s (f :: rest2) := rfl
      rw [h2, List.map_cons, ih]
      rfl

theorem blogPosts_timestamps (ctx : BuildCtx) :
    ∀ (fs : List BlogFile) (es : List Entry) (cm : CommentMap) (prev : Option String)
      (r : List Entry × CommentMap),
      blogPosts ctx fs es cm prev = .ok r →
      r.1.map (fun e => e.timestamp)
        = es.map (fun e => e.timestamp) ++ fs.map (fun f => parseStem f.stem) := by
  intro fs
  induction fs with
  | nil =>
    intro es cm prev r h
    simp only [blogPosts] at h
    cases h
    simp
  | cons f rest ih =>
    intro es cm prev r h
    simp only [blogPosts] at h
    cases hri : resolveImages ctx f.manifest.images with
    | error e => simp [hri] at h
    | ok imgDatas =>
      rw [hri] at h
      simp only at h
      have hr := ih _ _ _ _ h
      rw [hr]
      simp [threadAppend, map_setLastForward_eq (fun e => e.timestamp) (fun e s => rfl)]

/-- Claim C1 (corrected): the blog loop processes manifests in ascending
code-point lexicographic order of their filenames (the Python
`sorted(..., key=lambda f: f.name)`); whenever all numeric stems have
the same number of digits this coincides with ascending integer
timestamp order, and the assembled entries carry the manifests' integer
timestamps in exactly the processing order. -/
theorem c1_blog_manifest_order (ctx : BuildCtx) (cfg : BlogConfig) (files : List BlogFile) :
    (orderedNumeric files).Pairwise (fun f g => strLt (fileName g) (fileName f) = false) ∧
    ((∀ f ∈ orderedNumeric files, ∀ g ∈ orderedNumeric files,
        f.stem.length = g.stem.length) →
      ((orderedNumeric files).map (fun f => parseStem f.stem)).Sorted (· ≤ ·)) ∧
    (∀ r, assembleBlog ctx cfg files = .ok r →
      r.entries.map (fun e => e.timestamp)
        = (orderedNumeric files).map (fun f => parseStem f.stem)) := by
  have hasym : ∀ a b : BlogFile, strLt (fileName a) (fileName b) = true →
      strLt (fileName b) (fileName a) = false :=
    fun a b h => charListLt_asymm _ _ h
  have htrans : ∀ a b c : BlogFile, strLt (fileName a) (fileName b) = true →
      strLt (fileName b) (fileName c) = true → strLt (fileName a) (fileName c) = true :=
    fun a b c h1 h2 => charListLt_trans _ _ _ h1 h2
  have h1 : (orderedNumeric files).Pairwise
      (fun f g => strLt (fileName g) (fileName f) = false) := by
    have hp := pySorted_pairwise (fun a b => strLt (fileName a) (fileName b)) hasym htrans files
    exact List.Pairwise.filter _ hp
  refine ⟨h1, ?_, ?_⟩
  · intro hlen
    refine List.pairwise_map.mpr ?_
    refine h1.imp_of_mem ?_
    intro f g hf hg hfg
    have hnf : isNumericStr f.stem = true := (List.mem_filter.mp hf).2
    have hng : isNumericStr g.stem = true := (List.mem_filter.mp hg).2
    have hdf : ∀ c ∈ f.stem.data, isDigitChar c = true := by
      simp [isNumericStr, List.all_eq_true] at hnf
      exact hnf.2
    have hdg : ∀ c ∈ g.stem.data, isDigitChar c = true := by
      simp [isNumericStr, List.all_eq_true] at hng
      exact hng.2
    exact stem_le_of_name_not_lt f g (hlen f hf g hg) hdf hdg hfg
  · intro r hr
    unfold assembleBlog at hr
    cases hb : blogPosts ctx (orderedNumeric files) [] cfg.comments none with
    | error e => rw [hb] at hr; simp at hr
    | ok p =>
      rw [hb] at hr
      simp only at hr
      cases hr
      have := blogPosts_timestamps ctx _ _ _ _ _ hb
      simpa using this

/-- A blog whose two manifest stems have different digit counts: `9` and
`10`. -/
def files910 : List BlogFile :=
  [{ stem := "9"
     manifest := { title := "Nine", slug := "nine", description := none, images := [] } },
   { stem := "10"
     manifest := { title := "Ten", slug := "ten", description := none, images := [] } }]

/-- An otherwise empty blog configuration. -/
def cfgPlainBlog : BlogConfig :=
  { title := "B", slug := "b", description := none, icon := none, comments := [] }

/-- Counterexample for C1 as stated: `"10.json" < "9.json"` in the
string order the code sorts by, so the manifest with integer stem 10 is
processed before the one with stem 9 — the entry order is [10, 9], not
ascending by integer timestamp. -/
theorem c1_lex_counterexample :
    (assembleBlog trivCtx cfgPlainBlog files910).toOption.map
        (fun out => out.entries.map (fun e => e.timestamp)) = some [10, 9] ∧
    ¬ ([10, 9] : List Nat).Sorted (· ≤ ·) := by
  refine ⟨by decide, by decide⟩

/-- A blog with two equal-digit-count stems, supplied out of order. -/
def files100200 : List BlogFile :=
  [{ stem := "200"
     manifest := { title := "B", slug := "two", description := none, images := [] } },
   { stem := "100"
     manifest := { title := "A", slug := "one", description := none, images := [] } }]

/-- The concrete output of the witness blog build. -/
def c1OutW : SectionOut :=
  (assembleBlog trivCtx cfgPlainBlog files100200).toOption.getD default

/-- Witness for C1 at a concrete blog with equal-length stems. -/
theorem c1_blog_manifest_order_witness :
    ((orderedNumeric files100200).map (fun f => parseStem f.stem)).Sorted (· ≤ ·) ∧
    c1OutW.entries.map (fun e => e.timestamp)
      = (orderedNumeric files100200).map (fun f => parseStem f.stem) :=
  ⟨(c1_blog_manifest_order trivCtx cfgPlainBlog files100200).2.1 (by decide),
   (c1_blog_manifest_order trivCtx cfgPlainBlog files100200).2.2 c1OutW rfl⟩

/-! ### Claim C3: backward/forward link chains -/

/-- The chain shape of a section's entry list, starting from an expected
backward link `p`: each entry points backward at its predecessor and
forward at its successor, with `none` at both ends. -/
def ChainFrom : Option String → List Entry → Prop
  | _, [] => True
  | p, [e] => e.backward = p ∧ e.forward = none
  | p, e :: e' :: rest => e.backward = p ∧ e.forward = some e'.slug ∧
      ChainFrom (some e.slug) (e' :: rest)

/-- The claim's reading of a well-linked entry list: the head's backward
link is null, the tail's forward link is null, and adjacent entries
point at each other's slugs. -/
def ChainSpec (es : List Entry) : Prop :=
  (∀ a, es.head? = some a → a.backward = none) ∧
  (∀ a, es.getLast? = some a → a.forward = none) ∧
  (∀ i a b, es.get? i = some a → es.get? (i + 1) = some b →
    a.forward = some b.slug ∧ b.backward = some a.slug)

theorem threadAppend_cons_cons (y z : Entry) (rest : List Entry) (e : Entry) :
    threadAppend (y :: z :: rest) e = y :: threadAppend (z :: rest) e := rfl

theorem threadAppend_head (y : Entry) (rest : List Entry) (e : Entry) :
    ∃ y' tail', threadAppend (y :: rest) e = y' :: tail' ∧
      y'.slug = y.slug ∧ y'.backward = y.backward := by
  cases rest with
  | nil => exact ⟨_, _, rfl, rfl, rfl⟩
  | cons z rest2 => exact ⟨y, _, rfl, rfl, rfl⟩

theorem getLast?_threadAppend (es : List Entry) (e : Entry) :
    (threadAppend es e).getLast? = some e := by
  simp [threadAppend, List.getLast?_concat]

theorem chainFrom_threadAppend :
    ∀ (es : List Entry) (p : Option String) (e : Entry),
      ChainFrom p es →
      e.backward = (match es.getLast? with
        | some l => some l.slug
        | none => p) →
      e.forward = none →
      ChainFrom p (threadAppend es e) := by
  intro es
  induction es with
  | nil =>
    intro p e hc hb hf
    exact ⟨hb, hf⟩
  | cons x rest ih =>
    intro p e hc hb hf
    cases rest with
    | nil =>
      exact ⟨hc.1, rfl, hb, hf⟩
    | cons y rest2 =>
      rw [threadAppend_cons_cons]
      obtain ⟨y', tail', heq, hslug, _⟩ := threadAppend_head y rest2 e
      rw [heq]
      have hb2 : e.backward = (match (y :: rest2).getLast? with
          | some l => some l.slug
          | none => some x.slug) := by
        rw [List.getLast?_cons_cons] at hb
        cases hgl : (y :: rest2).getLast? with
        | none => exact absurd hgl (by simp)
        | some l =>
          rw [hgl] at hb
          simp only [hgl]
          exact hb
      have hrec := ih (some x.slug) e hc.2.2 hb2 hf
      refine ⟨hc.1, ?_, ?_⟩
      · rw [hslug]; exact hc.2.1
      · rw [← heq]; exact hrec

theorem chainFrom_head :
    ∀ (p : Option String) (es : List Entry) (a : Entry),
      ChainFrom p es → es.head? = some a → a.backward = p := by
  intro p es a hc hh
  cases es with
  | nil => simp at hh
  | cons e rest =>
    rw [List.head?_cons] at hh
    cases hh
    cases rest with
    | nil => exact hc.1
    | cons e' rest2 => exact hc.1

theorem chainFrom_last :
    ∀ (es : List Entry) (p : Option String) (a : Entry),
      ChainFrom p es → es.getLast? = some a → a.forward = none := by
  intro es
  induction es with
  | nil => intro p a _ h; simp at h
  | cons e rest ih =>
    intro p a hc hl
    cases rest with
    | nil =>
      simp [List.getLast?] at hl
      cases hl
      exact hc.2
    | cons e' rest2 =>
      rw [List.getLast?_cons_cons] at hl
      exact ih (some e.slug) a hc.2.2 hl

theorem chainFrom_adj :
    ∀ (es : List Entry) (p : Option String) (i : Nat) (a b : Entry),
      ChainFrom p es → es.get? i = some a → es.get? (i + 1) = some b →
      a.forward = some b.slug ∧ b.backward = some a.slug := by
  intro es
  induction es with
  | nil => intro p i a b _ h _; simp at h
  | cons e rest ih =>
    intro p i a b hc ha hb
    cases rest with
    | nil =>
      rw [List.get?_cons_succ] at hb
      simp at hb
    | cons e' rest2 =>
      cases i with
      | zero =>
        rw [List.get?_cons_zero] at ha
        cases ha
        rw [List.get?_cons_succ, List.get?_cons_zero] at hb
        cases hb
        exact ⟨hc.2.1, chainFrom_head _ _ _ hc.2.2 List.head?_cons⟩
      | succ j =>
        rw [List.get?_cons_succ] at ha hb
        exact ih (some e.slug) j a b hc.2.2 ha hb

theorem chainSpec_of_chainFrom (es : List Entry) (h : ChainFrom none es) : ChainSpec es :=
  ⟨fun a ha => chainFrom_head none es a h ha,
   fun a ha => chainFrom_last es none a h ha,
   fun i a b ha hb => chainFrom_adj es none i a b h ha hb⟩

theorem blogPosts_chain (ctx : BuildCtx) :
    ∀ (fs : List BlogFile) (es : List Entry) (cm : CommentMap) (prev : Option String)
      (r : List Entry × CommentMap),
      blogPosts ctx fs es cm prev = .ok r →
      ChainFrom none es →
      prev = (match es.getLast? with
        | some l => some l.slug
        | none => none) →
      ChainFrom none r.1 := by
  intro fs
  induction fs with
  | nil =>
    intro es cm prev r h hc _
    simp only [blogPosts] at h
    cases h
    exact hc
  | cons f rest ih =>
    intro es cm prev r h hc hp
    simp only [blogPosts] at h
    cases hri : resolveImages ctx f.manifest.images with
    | error e => simp [hri] at h
    | ok imgDatas =>
      rw [hri] at h
      simp only at h
      refine ih _ _ _ _ h ?_ ?_
      · refine chainFrom_threadAppend es none _ hc ?_ rfl
        rw [hp]
      · rw [getLast?_threadAppend]

theorem sectionPosts_chain (ctx : BuildCtx) (cfg : SectionConfig) :
    ∀ (imgs : List PPImage) (es : List Entry) (dates : List String) (cm : CommentMap)
      (prev : Option String),
      ChainFrom none es →
      prev = (match es.getLast? with
        | some l => some l.slug
        | none => none) →
      ChainFrom none (sectionPosts ctx cfg imgs es dates cm prev).1 := by
  intro imgs
  induction imgs with
  | nil =>
    intro es dates cm prev hc _
    simp only [sectionPosts]
    exact hc
  | cons img rest ih =>
    intro es dates cm prev hc hp
    simp only [sectionPosts]
    split
    · exact ih es dates cm prev hc hp
    · refine ih _ _ _ _ ?_ ?_
      · refine chainFrom_threadAppend es none _ hc ?_ rfl
        rw [hp]
      · rw [getLast?_threadAppend]

theorem autoPages_dates (cfg : SectionConfig) (es : List Entry) :
    (autoPages cfg es).map (fun p => p.date)
      = es.map (fun e => ((e.images.headD default).datetime).timestamp) := by
  simp [autoPages, List.map_map]

theorem sectionPosts_feedDates (ctx : BuildCtx) (cfg : SectionConfig) :
    ∀ (imgs : List PPImage) (es : List Entry) (dates : List String) (cm : CommentMap)
      (prev : Option String),
      ((sectionPosts ctx cfg imgs es dates cm prev).1).map
          (fun e => ((e.images.headD default).datetime).timestamp)
        = es.map (fun e => ((e.images.headD default).datetime).timestamp)
          ++ (imgs.filter (fun i => i.full_path.isSome)).map
              (fun i => i.creation_date.timestamp) := by
  intro imgs
  induction imgs with
  | nil =>
    intro es dates cm prev
    simp [sectionPosts]
  | cons img rest ih =>
    intro es dates cm prev
    simp only [sectionPosts]
    split
    · rename_i hnone
      rw [ih]
      have hps : img.full_path.isSome = false := by
        cases himg : img.full_path <;> simp [himg] at hnone ⊢
      simp [List.filter_cons, hps]
    · rename_i hnone
      have hps : img.full_path.isSome = true := by
        cases himg : img.full_path <;> simp [himg] at hnone ⊢
      rw [ih, threadAppend, List.map_append,
        map_setLastForward_eq (fun e => ((e.images.headD default).datetime).timestamp)
          (fun e s => rfl)]
      simp [List.filter_cons, hps, process_image]

/-- Claim C3 (corrected): in both protocols the backward/forward links
form a single chain over the entries *in assembly order* (head backward
null, tail forward null, adjacent entries pointing at each other's
slugs).  Assembly order is the photo store's creation-date order for
auto-sections — so their chain is ascending chronological whenever the
store honours its ordering contract — and ascending filename order for
blogs, which is ascending chronological only when the numeric stems
share a digit count. -/
theorem c3_link_chain (ctx : BuildCtx) (bcfg : BlogConfig) (files : List BlogFile)
    (scfg : SectionConfig) (imgs : List PPImage) :
    (∀ r, assembleBlog ctx bcfg files = .ok r → ChainSpec r.entries) ∧
    (∀ r, assembleSection ctx scfg imgs = .ok r → ChainSpec r.entries) ∧
    (∀ r, assembleBlog ctx bcfg files = .ok r →
      (∀ f ∈ orderedNumeric files, ∀ g ∈ orderedNumeric files,
        f.stem.length = g.stem.length) →
      (r.entries.map (fun e => e.timestamp)).Sorted (· ≤ ·)) ∧
    (∀ r, assembleSection ctx scfg imgs = .ok r →
      imgs.Pairwise (fun a b => a.creation_date.timestamp ≤ b.creation_date.timestamp) →
      ((autoPages scfg r.entries).map (fun p => p.date)).Sorted (· ≤ ·)) := by
  refine ⟨?_, ?_, ?_, ?_⟩
  · intro r hr
    unfold assembleBlog at hr
    cases hb : blogPosts ctx (orderedNumeric files) [] bcfg.comments none with
    | error e => rw [hb] at hr; simp at hr
    | ok p =>
      rw [hb] at hr
      simp only at hr
      cases hr
      exact chainSpec_of_chainFrom _ (blogPosts_chain ctx _ [] _ none p hb trivial rfl)
  · intro r hr
    unfold assembleSection at hr
    split at hr
    · simp at hr
    · simp only at hr
      cases hr
      exact chainSpec_of_chainFrom _
        (sectionPosts_chain ctx scfg imgs [] [] scfg.comments none trivial rfl)
  · intro r hr hlen
    unfold assembleBlog at hr
    cases hb : blogPosts ctx (orderedNumeric files) [] bcfg.comments none with
    | error e => rw [hb] at hr; simp at hr
    | ok p =>
      rw [hb] at hr
      simp only at hr
      cases hr
      have ht := blogPosts_timestamps ctx _ _ _ _ _ hb
      have hsorted : ((orderedNumeric files).map (fun f => parseStem f.stem)).Sorted (· ≤ ·) := by
        have hasym : ∀ a b : BlogFile, strLt (fileName a) (fileName b) = true →
            strLt (fileName b) (fileName a) = false :=
          fun a b h => charListLt_asymm _ _ h
        have htrans : ∀ a b c : BlogFile, strLt (fileName a) (fileName b) = true →
            strLt (fileName b) (fileName c) = true → strLt (fileName a) (fileName c) = true :=
          fun a b c h1 h2 => charListLt_trans _ _ _ h1 h2
        have h1 : (orderedNumeric files).Pairwise
            (fun f g => strLt (fileName g) (fileName f) = false) :=
          List.Pairwise.filter _
            (pySorted_pairwise (fun a b => strLt (fileName a) (fileName b)) hasym htrans files)
        refine List.pairwise_map.mpr (h1.imp_of_mem ?_)
        intro f g hf hg hfg
        have hnf : isNumericStr f.stem = true := (List.mem_filter.mp hf).2
        have hng : isNumericStr g.stem = true := (List.mem_filter.mp hg).2
        have hdf : ∀ c ∈ f.stem.data, isDigitChar c = true := by
          simp [isNumericStr, List.all_eq_true] at hnf
          exact hnf.2
        have hdg : ∀ c ∈ g.stem.data, isDigitChar c = true := by
          simp [isNumericStr, List.all_eq_true] at hng
          exact hng.2
        exact stem_le_of_name_not_lt f g (hlen f hf g hg) hdf hdg hfg
      simp only at ht
      rw [show (({ entries := p.1, leftover := p.2, warned := !p.2.isEmpty } : SectionOut).entries)
          = p.1 from rfl, ht]
      simpa using hsorted
  · intro r hr hord
    unfold assembleSection at hr
    split at hr
    · simp at hr
    · simp only at hr
      cases hr
      have hd := sectionPosts_feedDates ctx scfg imgs [] [] scfg.comments none
      show ((autoPages scfg
          (sectionPosts ctx scfg imgs [] [] scfg.comments none).1).map
            (fun p => p.date)).Sorted (· ≤ ·)
      rw [autoPages_dates, hd]
      simp only [List.map_nil, List.nil_append]
      exact List.pairwise_map.mpr (hord.filter _)

/-- Counterexample for C3 as stated: with manifest stems 9 and 10 the
entries are assembled in the order [10, 9], so the chain the links form
is not in ascending chronological order — the chronologically earlier
entry (timestamp 9) sits at the tail with a null forward link. -/
theorem c3_chain_counterexample :
    (assembleBlog trivCtx cfgPlainBlog files910).toOption.map
        (fun out => out.entries.map (fun e => (e.timestamp, e.slug, e.backward, e.forward)))
      = some [(10, "ten.html", none, some "nine.html"),
              (9, "nine.html", some "ten.html", none)] ∧
    (assembleBlog trivCtx cfgPlainBlog files910).toOption.map
        (fun out => decide ((out.entries.map (fun e => e.timestamp)).Sorted (· ≤ ·)))
      = some false := by
  refine ⟨by decide, by decide⟩

/-- Two path-resolved images in ascending creation order, without EXIF
data or tags. -/
def imgA : PPImage :=
  { id := 1, full_path := some "/a/x.jpg", creation_date := ⟨100, "2020-01-01"⟩
    exif := none, title := none, alt := none, caption := none, tags := [] }

/-- Second image, created later than `imgA`. -/
def imgB : PPImage :=
  { id := 2, full_path := some "/a/y.png", creation_date := ⟨200, "2020-01-02"⟩
    exif := none, title := none, alt := none, caption := none, tags := [] }

/-- A plain auto-section configuration with no minimum-rating filter. -/
def cfgAuto : SectionConfig :=
  { title := "Auto", slug := "auto", description := none, creators := none
    minRating := none, allTags := none, noTags := none, icon := none
    comments := [] }

/-- The concrete output of the witness blog assembly for C3. -/
def c3OutW : SectionOut :=
  (assembleBlog trivCtx cfgPlainBlog files100200).toOption.getD default

/-- The concrete output of the witness auto-section assembly for C3. -/
def c3SecOutW : SectionOut :=
  (assembleSection trivCtx cfgAuto [imgA, imgB]).toOption.getD default

/-- Witness for C3 at a concrete blog (equal-length stems) and a
concrete auto-section (store-ordered images). -/
theorem c3_link_chain_witness :
    ChainSpec c3OutW.entries ∧ ChainSpec c3SecOutW.entries ∧
    (c3OutW.entries.map (fun e => e.timestamp)).Sorted (· ≤ ·) ∧
    ((autoPages cfgAuto c3SecOutW.entries).map (fun p => p.date)).Sorted (· ≤ ·) :=
  ⟨(c3_link_chain trivCtx cfgPlainBlog files100200 cfgAuto [imgA, imgB]).1 c3OutW rfl,
   (c3_link_chain trivCtx cfgPlainBlog files100200 cfgAuto [imgA, imgB]).2.1 c3SecOutW rfl,
   (c3_link_chain trivCtx cfgPlainBlog files100200 cfgAuto [imgA, imgB]).2.2.1 c3OutW rfl
     (by decide),
   (c3_link_chain trivCtx cfgPlainBlog files100200 cfgAuto [imgA, imgB]).2.2.2 c3SecOutW rfl
     (by decide)⟩

/-! ### Claim C10: auto-section feed dates come from the raw creation date -/

theorem assembleSection_feedDates (ctx : BuildCtx) (cfg : SectionConfig)
    (imgs : List PPImage) :
    ∀ r, assembleSection ctx cfg imgs = .ok r →
      (autoPages cfg r.entries).map (fun p => p.date)
        = (imgs.filter (fun i => i.full_path.isSome)).map
            (fun i => i.creation_date.timestamp) := by
  intro r hr
  unfold assembleSection at hr
  split at hr
  · simp at hr
  · simp only at hr
    cases hr
    show ((autoPages cfg
        (sectionPosts ctx cfg imgs [] [] cfg.comments none).1).map
          (fun p => p.date)) = _
    rw [autoPages_dates, sectionPosts_feedDates]
    simp

/-- Claim C10: the `Page` date an auto-section post feeds to the feed
sort is always the underlying image's raw creation timestamp — date
overrides and EXIF dates change only the displayed date string and the
slug, never the feed sort key, so any two builds of the same images
(whatever their override stores) produce identical feed dates. -/
theorem c10_feed_date_is_creation (ctx ctx' : BuildCtx) (cfg : SectionConfig)
    (imgs : List PPImage) (hmin : cfg.minRating = none) :
    (∃ r, assembleSection ctx cfg imgs = .ok r ∧
      (autoPages cfg r.entries).map (fun p => p.date)
        = (imgs.filter (fun i => i.full_path.isSome)).map
            (fun i => i.creation_date.timestamp)) ∧
    (∀ r r', assembleSection ctx cfg imgs = .ok r →
      assembleSection ctx' cfg imgs = .ok r' →
      (autoPages cfg r.entries).map (fun p => p.date)
        = (autoPages cfg r'.entries).map (fun p => p.date)) := by
  constructor
  · set sp := sectionPosts ctx cfg imgs [] [] cfg.comments none with hsp
    have hok : assembleSection ctx cfg imgs
        = .ok { entries := sp.1, leftover := sp.2, warned := !sp.2.isEmpty } := by
      simp [assembleSection, hmin, hsp]
    exact ⟨_, hok, assembleSection_feedDates ctx cfg imgs _ hok⟩
  · intro r r' hr hr'
    rw [assembleSection_feedDates ctx cfg imgs r hr,
      assembleSection_feedDates ctx' cfg imgs r' hr']

/-- A context whose override store dates every image `1980-05-05`. -/
def ovrCtx : BuildCtx :=
  { store := fun _ => none
    allow := fun _ => false
    override := fun _ => some "1980-05-05"
    fmtDate := fun _ => "" }

/-- The witness auto-section output built with the override store. -/
def c10OutOvr : SectionOut :=
  (assembleSection ovrCtx cfgAuto [imgA, imgB]).toOption.getD default

/-- The witness auto-section output built with no overrides. -/
def c10OutTriv : SectionOut :=
  (assembleSection trivCtx cfgAuto [imgA, imgB]).toOption.getD default

/-- Witness for C10: the same images built with and without a date
override yield identical feed dates. -/
theorem c10_feed_date_is_creation_witness :
    (autoPages cfgAuto c10OutOvr.entries).map (fun p => p.date)
      = (autoPages cfgAuto c10OutTriv.entries).map (fun p => p.date) :=
  (c10_feed_date_is_creation ovrCtx trivCtx cfgAuto [imgA, imgB] rfl).2
    c10OutOvr c10OutTriv rfl rfl

/-! ### Decimal representations and slug injectivity -/

theorem digitChar10_toNat (k : Nat) (h : k < 10) : (digitChar10 k).toNat = 48 + k := by
  interval_cases k <;> decide

theorem digitsVal_concat (xs : List Char) (c : Char) :
    digitsVal (xs ++ [c]) = 10 * digitsVal xs + (c.toNat - 48) := by
  induction xs with
  | nil => simp [digitsVal]
  | cons x xs ih =>
    rw [List.cons_append]
    simp only [digitsVal]
    rw [ih, List.length_append]
    simp only [List.length_singleton]
    ring

theorem digitsVal_natDigitsF :
    ∀ (fuel n : Nat), n < fuel → digitsVal (natDigitsF fuel n) = n := by
  intro fuel
  induction fuel with
  | zero => intro n h; omega
  | succ fuel ih =>
    intro n h
    simp only [natDigitsF]
    split
    · rename_i h10
      have h48 := digitChar10_toNat n h10
      simp [digitsVal, h48]
    · rename_i h10
      have hdivlt : n / 10 < n := Nat.div_lt_self (by omega) (by omega)
      rw [digitsVal_concat, ih (n / 10) (by omega),
        digitChar10_toNat (n % 10) (Nat.mod_lt _ (by omega))]
      omega

theorem digitsVal_natDigits (n : Nat) : digitsVal (natDigits n) = n :=
  digitsVal_natDigitsF (n + 1) n (by omega)

theorem natDigits_ne_nil (n : Nat) : natDigits n ≠ [] := by
  simp only [natDigits, natDigitsF]
  split
  · simp
  · simp

theorem natRepr_inj {m n : Nat} (h : natRepr m = natRepr n) : m = n := by
  have hd : natDigits m = natDigits n := congrArg String.data h
  have := digitsVal_natDigits m
  rw [hd, digitsVal_natDigits] at this
  omega

theorem natRepr_length_pos (n : Nat) : 1 ≤ (natRepr n).length := by
  have h : (natDigits n).length ≠ 0 := by
    intro hlen
    exact natDigits_ne_nil n (List.eq_nil_of_length_eq_zero hlen)
  have : (natRepr n).length = (natDigits n).length := rfl
  omega

theorem str_append_cancel_right {a b c : String} (h : a ++ c = b ++ c) : a = b := by
  have hd := congrArg String.data h
  rw [String.data_append, String.data_append] at hd
  exact String.ext (List.append_inj' hd rfl).1

theorem str_append_inj_left {a b c d : String} (hl : a.length = b.length)
    (h : a ++ c = b ++ d) : a = b ∧ c = d := by
  have hd := congrArg String.data h
  rw [String.data_append, String.data_append] at hd
  have := List.append_inj hd hl
  exact ⟨String.ext this.1, String.ext this.2⟩

theorem slug_plain_inj {d1 d2 : String} (h : d1 ++ ".html" = d2 ++ ".html") : d1 = d2 :=
  str_append_cancel_right h

theorem slug_mixed_ne {d1 d2 : String} (h1 : d1.length = d2.length) (i : Nat) :
    d1 ++ ".html" ≠ d2 ++ "-" ++ natRepr i ++ ".html" := by
  intro h
  have hl := congrArg String.length h
  have hrl := natRepr_length_pos i
  simp [String.length_append] at hl
  omega

theorem slug_app_inj {d1 d2 : String} (hl : d1.length = d2.length) {i j : Nat}
    (h : d1 ++ "-" ++ natRepr i ++ ".html" = d2 ++ "-" ++ natRepr j ++ ".html") :
    d1 = d2 ∧ i = j := by
  have h1 : d1 ++ "-" ++ natRepr i = d2 ++ "-" ++ natRepr j := str_append_cancel_right h
  have h2 : d1 ++ "-" = d2 ++ "-" ∧ natRepr i = natRepr j := by
    refine str_append_inj_left ?_ h1
    simp [String.length_append, hl]
  refine ⟨str_append_cancel_right h2.1, natRepr_inj h2.2⟩

/-! ### Claim C4: slug uniqueness -/

/-- What assembly guarantees about one auto-section entry: its date has
the section's uniform length, its date was recorded in the seen-dates
set, and its slug is either the plain dated form or the id-disambiguated
form for an already-processed image id. -/
def EntrySlugOk (L : Nat) (used : List Nat) (dates : List String) (e : Entry) : Prop :=
  e.date.length = L ∧ e.date ∈ dates ∧
    (e.slug = e.date ++ ".html" ∨ ∃ i ∈ used, e.slug = e.date ++ "-" ++ natRepr i ++ ".html")

theorem entrySlugOk_mono {L : Nat} {used used' : List Nat} {dates dates' : List String}
    {e : Entry} (hu : ∀ i ∈ used, i ∈ used') (hd : ∀ d ∈ dates, d ∈ dates')
    (h : EntrySlugOk L used dates e) : EntrySlugOk L used' dates' e := by
  obtain ⟨h1, h2, h3⟩ := h
  refine ⟨h1, hd _ h2, ?_⟩
  rcases h3 with h3 | ⟨i, hi, h3⟩
  · exact Or.inl h3
  · exact Or.inr ⟨i, hu i hi, h3⟩

theorem plain_slug_fresh {L : Nat} {used : List Nat} {dates : List String}
    {e : Entry} (he : EntrySlugOk L used dates e)
    {date : String} (hdl : date.length = L) (hnew : date ∉ dates) :
    date ++ ".html" ≠ e.slug := by
  obtain ⟨hL, hmem, hshape⟩ := he
  rcases hshape with hs | ⟨i, _, hs⟩
  · intro h
    rw [hs] at h
    exact hnew (slug_plain_inj h ▸ hmem)
  · intro h
    rw [hs] at h
    exact slug_mixed_ne (by rw [hdl, hL]) i h

theorem app_slug_fresh {L : Nat} {used : List Nat} {dates : List String}
    {e : Entry} (he : EntrySlugOk L used dates e)
    {date : String} (hdl : date.length = L) {id : Nat} (hid : id ∉ used) :
    date ++ "-" ++ natRepr id ++ ".html" ≠ e.slug := by
  obtain ⟨hL, _, hshape⟩ := he
  rcases hshape with hs | ⟨i, hi, hs⟩
  · intro h
    rw [hs] at h
    exact slug_mixed_ne (by rw [hL, hdl]) id h.symm
  · intro h
    rw [hs] at h
    have hinj := slug_app_inj (by rw [hdl, hL]) h
    exact hid (hinj.2 ▸ hi)

theorem mem_setLastForward :
    ∀ (s : String) (es : List Entry) (e : Entry), e ∈ setLastForward s es →
      ∃ e₀, e₀ ∈ es ∧ e.slug = e₀.slug ∧ e.date = e₀.date := by
  intro s es
  induction es with
  | nil => intro e he; simp [setLastForward] at he
  | cons x rest ih =>
    cases rest with
    | nil =>
      intro e he
      simp [setLastForward] at he
      subst he
      exact ⟨x, by simp, rfl, rfl⟩
    | cons y rest2 =>
      intro e he
      rw [show setLastForward s (x :: y :: rest2) = x :: setLastForward s (y :: rest2)
        from rfl] at he
      rcases List.mem_cons.mp he with heq | he2
      · exact ⟨x, List.mem_cons_self _ _, by rw [heq], by rw [heq]⟩
      · obtain ⟨e₀, h0, hs, hd⟩ := ih e he2
        exact ⟨e₀, List.mem_cons_of_mem _ h0, hs, hd⟩

theorem map_slug_threadAppend (es : List Entry) (e : Entry) :
    (threadAppend es e).map (fun x => x.slug)
      = es.map (fun x => x.slug) ++ [e.slug] := by
  simp [threadAppend, map_setLastForward_eq (fun x => x.slug) (fun x s => rfl)]

theorem sectionPosts_slugs (ctx : BuildCtx) (cfg : SectionConfig) (L : Nat) :
    ∀ (imgs : List PPImage) (es : List Entry) (dates : List String) (cm : CommentMap)
      (prev : Option String) (used : List Nat),
      (∀ img ∈ imgs, img.full_path.isSome = true →
        (process_image ctx.allow ctx.override img).date.length = L) →
      (used ++ imgs.map (fun i => i.id)).Nodup →
      (es.map (fun e => e.slug)).Nodup →
      (∀ e ∈ es, EntrySlugOk L used dates e) →
      ((sectionPosts ctx cfg imgs es dates cm prev).1.map (fun e => e.slug)).Nodup ∧
      ∀ e ∈ (sectionPosts ctx cfg imgs es dates cm prev).1,
        e.slug = e.date ++ ".html" ∨ ∃ i, e.slug = e.date ++ "-" ++ natRepr i ++ ".html" := by
  intro imgs
  induction imgs with
  | nil =>
    intro es dates cm prev used hL hnd hsl hok
    simp only [sectionPosts]
    refine ⟨hsl, ?_⟩
    intro e he
    rcases (hok e he).2.2 with h | ⟨i, _, h⟩
    · exact Or.inl h
    · exact Or.inr ⟨i, h⟩
  | cons img rest ih =>
    intro es dates cm prev used hL hnd hsl hok
    simp only [sectionPosts]
    split
    · rename_i hnone
      refine ih es dates cm prev used
        (fun i hi hp => hL i (List.mem_cons_of_mem _ hi) hp) ?_ hsl hok
      simp only [List.map_cons] at hnd
      exact List.Pairwise.sublist ((List.sublist_cons_self _ _).append_left used) hnd
    · rename_i hnone
      have hfp : img.full_path.isSome = true := by
        cases himg : img.full_path <;> simp [himg] at hnone ⊢
      have hLc := hL img (List.mem_cons_self _ _) hfp
      simp only [List.map_cons] at hnd
      have hid_not_used : img.id ∉ used := by
        rw [List.nodup_append] at hnd
        intro h
        exact hnd.2.2 h (List.mem_cons_self _ _)
      have hnd' : ((used ++ [img.id]) ++ rest.map (fun i => i.id)).Nodup := by
        rw [List.append_assoc]
        exact hnd
      by_cases hdate : (process_image ctx.allow ctx.override img).date ∈ dates
      · simp only [if_pos hdate]
        refine ih _ _ _ _ (used ++ [img.id])
          (fun i hi hp => hL i (List.mem_cons_of_mem _ hi) hp) hnd' ?_ ?_
        · rw [map_slug_threadAppend, List.nodup_append]
          refine ⟨hsl, by simp, ?_⟩
          intro a ha hb
          simp only [List.mem_singleton] at hb
          obtain ⟨e, he, hae⟩ := List.mem_map.mp ha
          have heq : (process_image ctx.allow ctx.override img).date ++ "-"
              ++ natRepr img.id ++ ".html" = e.slug := by
            rw [hae, hb]
            exact rfl
          exact app_slug_fresh (hok e he) hLc hid_not_used heq
        · intro e he
          rcases List.mem_append.mp he with h1 | h2
          · obtain ⟨e₀, h0, hs, hd⟩ := mem_setLastForward _ es e h1
            obtain ⟨ha, hb', hc⟩ :=
              entrySlugOk_mono (fun i hi => List.mem_append.mpr (Or.inl hi))
                (fun d hdm => hdm) (hok e₀ h0)
            refine ⟨by rw [hd]; exact ha, by rw [hd]; exact hb', ?_⟩
            rcases hc with hc | ⟨i, hi, hc⟩
            · exact Or.inl (by rw [hs, hd]; exact hc)
            · exact Or.inr ⟨i, hi, by rw [hs, hd]; exact hc⟩
          · simp only [List.mem_singleton] at h2
            subst h2
            exact ⟨hLc, hdate, Or.inr ⟨img.id, by simp, rfl⟩⟩
      · simp only [if_neg hdate]
        refine ih _ _ _ _ (used ++ [img.id])
          (fun i hi hp => hL i (List.mem_cons_of_mem _ hi) hp) hnd' ?_ ?_
        · rw [map_slug_threadAppend, List.nodup_append]
          refine ⟨hsl, by simp, ?_⟩
          intro a ha hb
          simp only [List.mem_singleton] at hb
          obtain ⟨e, he, hae⟩ := List.mem_map.mp ha
          have heq : (process_image ctx.allow ctx.override img).date ++ ".html" = e.slug := by
            rw [hae, hb]
          exact plain_slug_fresh (hok e he) hLc hdate heq
        · intro e he
          rcases List.mem_append.mp he with h1 | h2
          · obtain ⟨e₀, h0, hs, hd⟩ := mem_setLastForward _ es e h1
            obtain ⟨ha, hb', hc⟩ :=
              entrySlugOk_mono (fun i hi => List.mem_append.mpr (Or.inl hi))
                (fun d hdm => List.mem_cons_of_mem _ hdm) (hok e₀ h0)
            refine ⟨by rw [hd]; exact ha, by rw [hd]; exact hb', ?_⟩
            rcases hc with hc | ⟨i, hi, hc⟩
            · exact Or.inl (by rw [hs, hd]; exact hc)
            · exact Or.inr ⟨i, hi, by rw [hs, hd]; exact hc⟩
          · simp only [List.mem_singleton] at h2
            subst h2
            exact ⟨hLc, List.mem_cons_self _ _, Or.inl rfl⟩

theorem blogPosts_slugs (ctx : BuildCtx) :
    ∀ (fs : List BlogFile) (es : List Entry) (cm : CommentMap) (prev : Option String)
      (r : List Entry × CommentMap),
      blogPosts ctx fs es cm prev = .ok r →
      r.1.map (fun e => e.slug)
        = es.map (fun e => e.slug) ++ fs.map (fun f => f.manifest.slug ++ ".html") := by
  intro fs
  induction fs with
  | nil =>
    intro es cm prev r h
    simp only [blogPosts] at h
    cases h
    simp
  | cons f rest ih =>
    intro es cm prev r h
    simp only [blogPosts] at h
    cases hri : resolveImages ctx f.manifest.images with
    | error e => simp [hri] at h
    | ok imgDatas =>
      rw [hri] at h
      simp only at h
      have hr := ih _ _ _ _ h
      rw [hr, map_slug_threadAppend]
      simp

/-- Claim C4 (corrected): in an auto-section whose images have pairwise
distinct ids and whose effective dates all have one fixed length (as
`YYYY-MM-DD` strings do), no two assembled entries share a slug, and
every slug is either the plain dated form or the dated form with the
image id appended (the disambiguated later twin).  Blog entries, by
contrast, take their manifests' slugs verbatim (suffixed `.html`), so
their slugs are pairwise distinct exactly when the manifests' slugs
are. -/
theorem c4_slug_uniqueness (ctx : BuildCtx) (cfg : SectionConfig) (bcfg : BlogConfig)
    (imgs : List PPImage) (files : List BlogFile) (L : Nat)
    (hL : ∀ img ∈ imgs, img.full_path.isSome = true →
      (process_image ctx.allow ctx.override img).date.length = L)
    (hids : (imgs.map (fun i => i.id)).Nodup) :
    (∀ r, assembleSection ctx cfg imgs = .ok r →
      (r.entries.map (fun e => e.slug)).Nodup ∧
      ∀ e ∈ r.entries, e.slug = e.date ++ ".html" ∨
        ∃ i, e.slug = e.date ++ "-" ++ natRepr i ++ ".html") ∧
    (∀ r, assembleBlog ctx bcfg files = .ok r →
      ((r.entries.map (fun e => e.slug)).Nodup ↔
        ((orderedNumeric files).map (fun f => f.manifest.slug)).Nodup)) := by
  constructor
  · intro r hr
    unfold assembleSection at hr
    split at hr
    · simp at hr
    · simp only at hr
      cases hr
      exact sectionPosts_slugs ctx cfg L imgs [] [] cfg.comments none [] hL
        (by simpa using hids) (by simp) (by simp)
  · intro r hr
    unfold assembleBlog at hr
    cases hb : blogPosts ctx (orderedNumeric files) [] bcfg.comments none with
    | error e => rw [hb] at hr; simp at hr
    | ok p =>
      rw [hb] at hr
      simp only at hr
      cases hr
      have hs := blogPosts_slugs ctx _ _ _ _ _ hb
      simp only [List.map_nil, List.nil_append] at hs
      show (p.1.map (fun e => e.slug)).Nodup ↔ _
      rw [hs]
      rw [show (orderedNumeric files).map (fun f => f.manifest.slug ++ ".html")
          = ((orderedNumeric files).map (fun f => f.manifest.slug)).map
              (fun s => s ++ ".html")
        from by rw [List.map_map]; rfl]
      constructor
      · exact fun h => h.of_map _
      · exact fun h => List.Nodup.map (fun a b hab => slug_plain_inj hab) h

/-- Two blog manifests that configure the same slug. -/
def filesDup : List BlogFile :=
  [{ stem := "100"
     manifest := { title := "A", slug := "same", description := none, images := [] } },
   { stem := "200"
     manifest := { title := "B", slug := "same", description := none, images := [] } }]

/-- Counterexample for C4 as stated: blog slugs are taken verbatim from
the manifests, so two posts configured with the same slug produce two
entries sharing the slug `same.html` within one section. -/
theorem c4_dup_slug_counterexample :
    (assembleBlog trivCtx cfgPlainBlog filesDup).toOption.map
        (fun out => out.entries.map (fun e => e.slug))
      = some ["same.html", "same.html"] ∧
    (assembleBlog trivCtx cfgPlainBlog filesDup).toOption.map
        (fun out => decide ((out.entries.map (fun e => e.slug)).Nodup))
      = some false := by
  refine ⟨by decide, by decide⟩

/-- Two images with distinct ids sharing one creation date. -/
def imgDupA : PPImage :=
  { id := 1, full_path := some "/a/x.jpg", creation_date := ⟨100, "2020-01-01"⟩
    exif := none, title := none, alt := none, caption := none, tags := [] }

/-- The second image with the same effective date as `imgDupA`. -/
def imgDupB : PPImage :=
  { id := 2, full_path := some "/a/y.jpg", creation_date := ⟨200, "2020-01-01"⟩
    exif := none, title := none, alt := none, caption := none, tags := [] }

/-- The witness auto-section output with a same-date collision. -/
def c4OutW : SectionOut :=
  (assembleSection trivCtx cfgAuto [imgDupA, imgDupB]).toOption.getD default

/-- Witness for C4 at a concrete auto-section whose two images share an
effective date: the slugs come out pairwise distinct, the second
disambiguated with the image id. -/
theorem c4_slug_uniqueness_witness :
    ((c4OutW.entries.map (fun e => e.slug)).Nodup ∧
      ∀ e ∈ c4OutW.entries, e.slug = e.date ++ ".html" ∨
        ∃ i, e.slug = e.date ++ "-" ++ natRepr i ++ ".html") ∧
    c4OutW.entries.map (fun e => e.slug) = ["2020-01-01.html", "2020-01-01-2.html"] :=
  ⟨(c4_slug_uniqueness trivCtx cfgAuto cfgPlainBlog [imgDupA, imgDupB] [] 10
      (by decide) (by decide)).1 c4OutW rfl,
   by decide⟩

/-! ### Claim C5: the tag authorization walk -/

theorem joinTag_cons_cons (s y : String) (rest : List String) :
    joinTag (s :: y :: rest) = s ++ "/" ++ joinTag (y :: rest) := rfl

theorem joinTag_ne_empty :
    ∀ segs : List String, segs ≠ [] → (∀ s ∈ segs, s ≠ "") → joinTag segs ≠ "" := by
  intro segs
  induction segs with
  | nil => intro h; simp at h
  | cons s rest ih =>
    intro _ hs
    cases rest with
    | nil => exact hs s (List.mem_cons_self _ _)
    | cons y rest2 =>
      rw [joinTag_cons_cons]
      intro he
      have hlen := congrArg String.length he
      have h1 : ("/" : String).length = 1 := rfl
      have h2 : ("" : String).length = 0 := rfl
      rw [String.length_append, String.length_append, h1, h2] at hlen
      omega

theorem joinTag_concat :
    ∀ (xs : List String) (y : String), xs ≠ [] →
      joinTag (xs ++ [y]) = joinTag xs ++ "/" ++ y := by
  intro xs
  induction xs with
  | nil => intro y h; simp at h
  | cons s rest ih =>
    intro y _
    cases rest with
    | nil => rfl
    | cons z rest2 =>
      have h2 : joinTag ((z :: rest2) ++ [y]) = joinTag (z :: rest2) ++ "/" ++ y :=
        ih y (by simp)
      show joinTag (s :: ((z :: rest2) ++ [y])) = (s ++ "/" ++ joinTag (z :: rest2)) ++ "/" ++ y
      rw [show joinTag (s :: ((z :: rest2) ++ [y]))
          = s ++ "/" ++ joinTag ((z :: rest2) ++ [y]) from rfl]
      rw [h2]
      simp [String.append_assoc]

theorem joinTag_take_succ_length (segs : List String) (i : Nat) (h1 : 1 ≤ i)
    (h2 : i < segs.length) :
    (joinTag (segs.take i)).length + 1 ≤ (joinTag (segs.take (i + 1))).length := by
  rw [List.take_succ, List.getElem?_eq_getElem h2]
  rw [show (some segs[i]).toList = [segs[i]] from rfl]
  rw [joinTag_concat _ _ ?hne]
  case hne =>
    have hlt : (segs.take i).length = i := by
      rw [List.length_take, min_eq_left (by omega)]
    intro hnil
    rw [hnil] at hlt
    simp at hlt
    omega
  rw [String.length_append, String.length_append]
  have hslash : ("/" : String).length = 1 := rfl
  omega

theorem joinTag_take_lt (segs : List String) (i j : Nat) (h1 : 1 ≤ i) (hij : i < j)
    (hj : j ≤ segs.length) :
    (joinTag (segs.take i)).length < (joinTag (segs.take j)).length := by
  have key : ∀ m, i < m → m ≤ segs.length →
      (joinTag (segs.take i)).length < (joinTag (segs.take m)).length := by
    intro m
    induction m with
    | zero => omega
    | succ n ihn =>
      intro him hm
      by_cases hcase : i < n
      · have ha := ihn hcase (by omega)
        have hb := joinTag_take_succ_length segs n (by omega) (by omega)
        omega
      · have hin : n = i := by omega
        subst hin
        have hb := joinTag_take_succ_length segs n h1 (by omega)
        omega
  exact key j hij hj

theorem mem_register_walkF :
    ∀ (fuel : Nat) (segs : List String), (∀ s ∈ segs, s ≠ "") → segs.length < fuel →
      ∀ t, t ∈ register_walkF fuel segs ↔
        ∃ i, 1 ≤ i ∧ i ≤ segs.length ∧ t = joinTag (segs.take i) := by
  intro fuel
  induction fuel with
  | zero => intro segs _ h; omega
  | succ fuel ih =>
    intro segs hseg hlen t
    simp only [register_walkF]
    by_cases hnil : segs = []
    · subst hnil
      constructor
      · intro h
        rw [show joinTag ([] : List String) = "" from rfl] at h
        simp at h
      · rintro ⟨i, h1, h2, _⟩
        simp at h2
        omega
    · have hne := joinTag_ne_empty segs hnil hseg
      rw [if_neg hne]
      have hpos : 0 < segs.length := List.length_pos.mpr hnil
      have hlen2 : segs.dropLast.length < fuel := by
        rw [List.length_dropLast]
        omega
      have hsegd : ∀ s ∈ segs.dropLast, s ≠ "" :=
        fun s hs => hseg s ((List.dropLast_sublist segs).subset hs)
      constructor
      · intro h
        rcases List.mem_cons.mp h with heq | h2
        · exact ⟨segs.length, hpos, le_refl _, by rw [List.take_length]; exact heq⟩
        · obtain ⟨i, hi1, hi2, hi3⟩ := (ih segs.dropLast hsegd hlen2 t).mp h2
          rw [List.length_dropLast] at hi2
          refine ⟨i, hi1, by omega, ?_⟩
          rw [hi3, List.dropLast_eq_take, List.take_take, min_eq_left (by omega)]
      · rintro ⟨i, hi1, hi2, hi3⟩
        by_cases hik : i = segs.length
        · subst hik
          exact List.mem_cons.mpr (Or.inl (by rw [hi3, List.take_length]))
        · refine List.mem_cons.mpr (Or.inr ?_)
          refine (ih segs.dropLast hsegd hlen2 t).mpr ⟨i, hi1, ?_, ?_⟩
          · rw [List.length_dropLast]; omega
          · rw [hi3, List.dropLast_eq_take, List.take_take, min_eq_left (by omega)]

theorem mem_register_walk (segs : List String) (hseg : ∀ s ∈ segs, s ≠ "") (t : String) :
    t ∈ register_walk segs ↔
      ∃ i, 1 ≤ i ∧ i ≤ segs.length ∧ t = joinTag (segs.take i) :=
  mem_register_walkF (segs.length + 1) segs hseg (by omega) t

theorem walk_tagF_allowed (allow : String → Bool) :
    ∀ (fuel : Nat) (segs : List String) (k : Nat),
      (∀ s ∈ segs, s ≠ "") → segs.length < fuel →
      1 ≤ k → k ≤ segs.length →
      allow (joinTag (segs.take k)) = true →
      (∀ j, k < j → j ≤ segs.length → allow (joinTag (segs.take j)) = false) →
      walk_tagF allow fuel segs = (some (segs.take k), register_walk (segs.take k)) := by
  intro fuel
  induction fuel with
  | zero => intro segs k _ h; omega
  | succ fuel ih =>
    intro segs k hseg hlen hk1 hk2 hall hden
    have hnil : segs ≠ [] := by
      intro h
      subst h
      simp at hk2
      omega
    have hne := joinTag_ne_empty segs hnil hseg
    simp only [walk_tagF]
    rw [if_neg hne]
    by_cases hk : k = segs.length
    · subst hk
      rw [List.take_length] at hall ⊢
      rw [if_pos hall]
    · have hdenlast : allow (joinTag segs) = false := by
        have h := hden segs.length (by omega) (le_refl _)
        rwa [List.take_length] at h
      rw [hdenlast]
      simp only [Bool.false_eq_true, if_false]
      have htk : segs.dropLast.take k = segs.take k := by
        rw [List.dropLast_eq_take, List.take_take, min_eq_left (by omega)]
      rw [← htk]
      refine ih segs.dropLast k
        (fun s hs => hseg s ((List.dropLast_sublist segs).subset hs)) ?_ hk1 ?_ ?_ ?_
      · rw [List.length_dropLast]; omega
      · rw [List.length_dropLast]; omega
      · rw [htk]; exact hall
      · intro j hj1 hj2
        rw [List.length_dropLast] at hj2
        have htj : segs.dropLast.take j = segs.take j := by
          rw [List.dropLast_eq_take, List.take_take, min_eq_left (by omega)]
        rw [htj]
        exact hden j hj1 (by omega)

theorem walk_tagF_denied (allow : String → Bool) :
    ∀ (fuel : Nat) (segs : List String),
      (∀ s ∈ segs, s ≠ "") → segs.length < fuel →
      (∀ j, 1 ≤ j → j ≤ segs.length → allow (joinTag (segs.take j)) = false) →
      walk_tagF allow fuel segs = (none, []) := by
  intro fuel
  induction fuel with
  | zero => intro segs _ h; omega
  | succ fuel ih =>
    intro segs hseg hlen hden
    simp only [walk_tagF]
    by_cases hnil : segs = []
    · subst hnil
      rw [show joinTag ([] : List String) = "" from rfl]
      simp
    · have hne := joinTag_ne_empty segs hnil hseg
      rw [if_neg hne]
      have hlast : allow (joinTag segs) = false := by
        have h := hden segs.length (List.length_pos.mpr hnil) (le_refl _)
        rwa [List.take_length] at h
      rw [hlast]
      simp only [Bool.false_eq_true, if_false]
      refine ih segs.dropLast
        (fun s hs => hseg s ((List.dropLast_sublist segs).subset hs)) ?_ ?_
      · rw [List.length_dropLast]
        have := List.length_pos.mpr hnil
        omega
      · intro j hj1 hj2
        rw [List.length_dropLast] at hj2
        have htj : segs.dropLast.take j = segs.take j := by
          rw [List.dropLast_eq_take, List.take_take, min_eq_left (by omega)]
        rw [htj]
        exact hden j hj1 (by omega)

/-- Claim C5: for a raw tag with nonempty slash-separated segments, the
authorization walk attaches the longest allowed prefix `take k` (every
longer prefix having been denied on the way down), registers exactly
that prefix and every shorter prefix up to the root — and none of the
denied longer prefixes; when every prefix including the root is denied,
the tag yields no attachment and no registration. -/
theorem c5_tag_walk (allow : String → Bool) (segs : List String)
    (hseg : ∀ s ∈ segs, s ≠ "") :
    (∀ k, 1 ≤ k → k ≤ segs.length →
      allow (joinTag (segs.take k)) = true →
      (∀ j, k < j → j ≤ segs.length → allow (joinTag (segs.take j)) = false) →
      walk_tag allow segs = (some (segs.take k), register_walk (segs.take k)) ∧
      (∀ t, t ∈ register_walk (segs.take k) ↔
        ∃ i, 1 ≤ i ∧ i ≤ k ∧ t = joinTag (segs.take i)) ∧
      ∀ j, k < j → j ≤ segs.length →
        joinTag (segs.take j) ∉ register_walk (segs.take k)) ∧
    ((∀ j, 1 ≤ j → j ≤ segs.length → allow (joinTag (segs.take j)) = false) →
      walk_tag allow segs = (none, [])) := by
  constructor
  · intro k hk1 hk2 hall hden
    have hsegk : ∀ s ∈ segs.take k, s ≠ "" :=
      fun s hs => hseg s ((List.take_sublist k segs).subset hs)
    have htklen : (segs.take k).length = k := by
      rw [List.length_take, min_eq_left hk2]
    refine ⟨?_, ?_, ?_⟩
    · exact walk_tagF_allowed allow (segs.length + 1) segs k hseg (by omega) hk1 hk2 hall hden
    · intro t
      rw [mem_register_walk (segs.take k) hsegk t, htklen]
      constructor
      · rintro ⟨i, h1, h2, h3⟩
        rw [List.take_take, min_eq_left h2] at h3
        exact ⟨i, h1, h2, h3⟩
      · rintro ⟨i, h1, h2, h3⟩
        refine ⟨i, h1, h2, ?_⟩
        rw [List.take_take, min_eq_left h2]
        exact h3
    · intro j hj1 hj2 hmem
      rw [mem_register_walk (segs.take k) hsegk _, htklen] at hmem
      obtain ⟨i, h1, h2, h3⟩ := hmem
      rw [List.take_take, min_eq_left h2] at h3
      have hlt := joinTag_take_lt segs i j h1 (by omega) hj2
      have hlen := congrArg String.length h3
      omega
  · intro hden
    exact walk_tagF_denied allow (segs.length + 1) segs hseg (by omega) hden

/-- A decision store that allows `animals/birds` and `animals` but
denies everything else, in particular `animals/birds/crow`. -/
def dC5 : String → Bool := fun s => (s == "animals/birds") || (s == "animals")

/-- Witness for C5: the leaf `animals/birds/crow` is denied, the walk
attaches `animals/birds` and registers it together with `animals`. -/
theorem c5_tag_walk_witness :
    walk_tag dC5 ["animals", "birds", "crow"]
        = (some ["animals", "birds"], register_walk ["animals", "birds"]) ∧
    register_walk ["animals", "birds"] = ["animals/birds", "animals"] := by
  constructor
  · exact ((c5_tag_walk dC5 ["animals", "birds", "crow"] (by decide)).1 2 (by omega)
      (by decide) (by decide)
      (by
        intro j hj1 hj2
        simp at hj2
        have hj : j = 3 := by omega
        subst hj
        decide)).1
  · decide
